import Mathlib

/-!
# XDD nodes, their manager and the local-edge timing processor

A shallow embedding of `otawa::xengine::Node`, `otawa::xengine::NodeManager` and the
comparator and hash of `Code/Node.hpp`, and of `LocalBBXddTimeProcessor` (`processEdge`,
`computeTime` and the job producer) of `Code/LocalBBXddTimeProcessor.cpp`.

* A pointer is a natural number; `0` is `nullptr`.  The free store is the list of the
  `Node` objects allocated so far: the pointer `p > 0` designates the object at position
  `p - 1`, and `new` appends an object and returns its (fresh) address.
* `int` (`XddVal`) is an `Int`; the places where the source can overflow are the
  subtractions of the two `compare` functions, which are taken modulo `2^32` (`wrap32`).
* `uint64_t` (`XddVar`) and the pointers are `Nat`.
* An `ASSERTP` that does not hold aborts the program: the embedded function returns `none`
  (`Outcome.abort`, with the values of the variables at that point, for the processor).
-/

namespace otawa.xengine

namespace SpecialVals

/-- `INT_MIN`. -/
def BOT : Int := -2147483648

/-- `INT_MAX`. -/
def TOP : Int := 2147483647

def NoVal : Int := -999999

/-- The value `(unsigned) -1`. -/
def NoVar : Nat := 4294967295

end SpecialVals

/-- Result of an `int` operation, reduced modulo `2^32` into `[INT_MIN, INT_MAX]`. -/
def wrap32 (x : Int) : Int := (x + 2147483648) % 4294967296 - 2147483648

/-- The private members of `class Node`. -/
structure Node where
  left : Nat
  right : Nat
  _var : Nat
  _val : Int
  _max : Int
  _min : Int
deriving DecidableEq, Repr

/-- The free store: the objects allocated so far, the object of address `p` at index `p - 1`. -/
abbrev Heap := List Node

/-- Reading `*p`; `none` when `p` is null or designates no object. -/
def deref (h : Heap) (p : Nat) : Option Node :=
  if p = 0 then none else h[p - 1]?

/-- The expression `new Node(...)`: stores the object and returns its address. -/
def alloc (h : Heap) (n : Node) : Nat × Heap := (h.length + 1, h ++ [n])

namespace Node

/-- The constructor `Node(XddVal val)`. -/
def ofVal (val : Int) : Node :=
  { left := 0, right := 0, _var := SpecialVals.NoVar, _val := val, _max := val, _min := val }

/-- The constructor `Node(XddVar v, const Node *left, const Node *right)`; it reads
`left->_max`, `right->_max`, `left->_min` and `right->_min`. -/
def ofVar (h : Heap) (v : Nat) (left right : Nat) : Option Node :=
  match deref h left, deref h right with
  | some l, some r =>
    some { left := left, right := right, _var := v, _val := SpecialVals.NoVal,
           _max := max l._max r._max, _min := min l._min r._min }
  | _, _ => none

def maxLeaf (n : Node) : Int := n._max

def minLeaf (n : Node) : Int := n._min

/-- The accessor `low()`: it carries no assertion and returns the stored pointer. -/
def low (n : Node) : Option Nat := some n.left

/-- The accessor `high()`: it carries no assertion and returns the stored pointer. -/
def high (n : Node) : Option Nat := some n.right

def isLeaf (n : Node) : Bool := n._var == SpecialVals.NoVar

/-- The accessor `val()`, with its assertion `isLeaf()`. -/
def val (n : Node) : Option Int :=
  if n.isLeaf then some n._val else none

/-- The accessor `var()`, with its assertions `!isLeaf()` and `_var > 0`. -/
def var (n : Node) : Option Nat :=
  if n.isLeaf then none
  else if 0 < n._var then some n._var
  else none

/-- The operator `Node::operator==`. -/
def eq (n n2 : Node) : Bool :=
  n._var == n2._var && n._val == n2._val && n.left == n2.left && n.right == n2.right

/-- The method `Node::compare`, called on `*this` with argument `*n2`.  The recursion of
the source follows the children; `fuel` bounds its depth, and `none` is also the result
when the fuel is exhausted. -/
def compare (h : Heap) : Nat → Nat → Nat → Option Int
  | 0, _, _ => none
  | fuel + 1, this, n2 =>
    match deref h this, deref h n2 with
    | some self, some other =>
      if this = n2 then some 0
      else if self.isLeaf && !other.isLeaf then some (-1)
      else if !self.isLeaf && other.isLeaf then some 1
      else if self.isLeaf && other.isLeaf then
        match self.val, other.val with
        | some a, some b => some (wrap32 (a - b))
        | _, _ => none
      else
        match self.var, other.var with
        | some v1, some v2 =>
          if v1 > v2 then some 1
          else if v1 < v2 then some (-1)
          else
            match self.high, other.high with
            | some h1, some h2 =>
              match compare h fuel h1 h2 with
              | some diff =>
                if diff ≠ 0 then some diff
                else
                  match self.low, other.low with
                  | some l1, some l2 => compare h fuel l1 l2
                  | _, _ => none
              | none => none
            | _, _ => none
        | _, _ => none
    | _, _ => none

end Node

end otawa.xengine

namespace elm

open otawa.xengine

/-- Modelled from the spec: the type `t::hash` of the hash values is declared by the
container library, outside the sources.  The hash is a 32-bit word, as the `uint32_t`
`seed`, `c1`, `c2` and `rotl32` of the source are: its arithmetic is modulo `2^32`. -/
def hashModulus : Nat := 4294967296

namespace HashKey

def c1 : Nat := 0xcc9e2d51

def c2 : Nat := 0x1b873593

def seed : Nat := 13

/-- The function `rotl32(uint32_t x, int8_t r)`; the argument is converted to 32 bits. -/
def rotl32 (x : Nat) (r : Nat) : Nat :=
  ((x % 4294967296) <<< r) % 4294967296 ||| ((x % 4294967296) >>> (32 - r))

/-- The function `subHash(const t::uint64 i, t::hash _hash)`.  As in the source, the
second half `k2` is rotated from `k1`, not from itself. -/
def subHash (i : Nat) (_hash : Nat) : Nat :=
  let k1 := (i &&& 0xFFFFFFFF) % 4294967296
  let k1 := (k1 * c1) % 4294967296
  let k1 := rotl32 k1 15
  let k1 := (k1 * c2) % 4294967296
  let _hash := _hash ^^^ k1
  let _hash := rotl32 _hash 13 % hashModulus
  let _hash := (_hash * 5 + 0xe6546b64) % hashModulus
  let k2 := (i >>> 32) % 4294967296
  let _k2 := (k2 * c1) % 4294967296
  let k2 := rotl32 k1 15
  let k2 := (k2 * c2) % 4294967296
  let _hash := _hash ^^^ k2
  let _hash := rotl32 _hash 13 % hashModulus
  let _hash := (_hash * 5 + 0xe6546b64) % hashModulus
  _hash

/-- Conversion of an `int` to `t::uint64`. -/
def toUInt64 (v : Int) : Nat := (v % 18446744073709551616).toNat

/-- The function `HashKey<const Node*>::hash`, on the object the key points to; it calls
`val()` on a leaf and `var()` on an inner node, and so aborts where they do. -/
def hash (key : Node) : Option Nat :=
  if key.isLeaf then
    match key.val with
    | some v => some (subHash (toUInt64 v) seed)
    | none => none
  else
    match key.low, key.high, key.var with
    | some l, some r, some v =>
      let _hash := seed
      let _hash := subHash l _hash
      let _hash := subHash r _hash
      let _hash := subHash v _hash
      some _hash
    | _, _, _ => none

/-- The function `HashKey<const Node*>::equals`. -/
def equals (key1 key2 : Node) : Bool := key1.eq key2

end HashKey

/-- One cell of a bucket list of the hash table: the bucket it hangs in, the key and the
value. -/
structure HashMap.Entry where
  bucket : Nat
  key : Nat
  value : Nat
deriving DecidableEq, Repr

/-- Modelled from the spec: the container `elm::HashMap<const Node *, const Node *>` is
library code, outside the sources.  It is the unique table of the spec, probed with the
hash and the equality of `HashKey<const Node *>`: a chained hash table of `size` buckets,
in which a key is looked up in the bucket of its hash, by `HashKey::equals`. -/
structure HashMap where
  size : Nat
  entries : List HashMap.Entry
deriving DecidableEq, Repr

namespace HashMap

/-- Scan of the cells of bucket `i` for a key equal to `key`; the stored key pointers are
dereferenced by `equals`. -/
def scan (h : Heap) (i : Nat) (key : Node) : List Entry → Option (Option Entry)
  | [] => some none
  | e :: es =>
    if e.bucket = i then
      match deref h e.key with
      | some k => if HashKey.equals k key then some (some e) else scan h i key es
      | none => none
    else scan h i key es

/-- Lookup of the cell of `key`: hashes the key, then scans its bucket. -/
def lookup (h : Heap) (t : HashMap) (key : Node) : Option (Option Entry) :=
  match HashKey.hash key with
  | some hk => scan h (hk % t.size) key t.entries
  | none => none

/-- The method `get(key, def)`. -/
def get (h : Heap) (t : HashMap) (key : Node) (dflt : Nat) : Option Nat :=
  match lookup h t key with
  | some (some e) => some e.value
  | some none => some dflt
  | none => none

/-- The assignment `table[key] = value`: the value of an equal key is replaced, otherwise
a cell is added to the bucket of the key. -/
def put (h : Heap) (t : HashMap) (key value : Nat) : Option HashMap :=
  match deref h key with
  | some k =>
    match HashKey.hash k, lookup h t k with
    | some hk, some none =>
      some { t with entries := { bucket := hk % t.size, key := key, value := value } :: t.entries }
    | some _, some (some e) =>
      some { t with entries :=
        t.entries.map (fun x => if x.key = e.key then { x with value := value } else x) }
    | _, _ => none
  | none => none

/-- The method `count()`. -/
def count (t : HashMap) : Nat := t.entries.length

end HashMap

end elm

namespace otawa.xengine

open elm

/-- The class `NodeManager`, together with the free store its nodes live in. -/
structure NodeManager where
  heap : Heap
  _unique_table : HashMap
  bot : Nat
  top : Nat
  zero : Nat
deriving DecidableEq, Repr

namespace NodeManager

def XDD_HASH_SIZE : Nat := 65551

/-- The constructor `NodeManager()`: an empty table and the three leaves `bot`, `top` and
`zero`, allocated in this order. -/
def new : NodeManager :=
  let h : Heap := []
  let (pbot, h) := alloc h (Node.ofVal SpecialVals.BOT)
  let (ptop, h) := alloc h (Node.ofVal SpecialVals.TOP)
  let (pzero, h) := alloc h (Node.ofVal 0)
  { heap := h, _unique_table := { size := XDD_HASH_SIZE, entries := [] },
    bot := pbot, top := ptop, zero := pzero }

/-- The static method `index`. -/
def index (n : Node) : Option Nat :=
  if n.isLeaf then some 0 else n.var

/-- The method `mK(XddVar var, const Node *left, const Node *right)`.  The result is the
returned pointer (`none` when the call aborts) and the state the call leaves. -/
def mK (m : NodeManager) (var : Nat) (left right : Nat) : Option Nat × NodeManager :=
  if ¬ (left ≠ 0 ∧ right ≠ 0) then (none, m)
  else if ¬ (var ≠ SpecialVals.NoVar) then (none, m)
  else if left = right then (some left, m)
  else
    match Node.ofVar m.heap var left right with
    | none => (none, m)
    | some _tmp =>
      match m._unique_table.get m.heap _tmp 0 with
      | none => (none, m)
      | some find =>
        if find ≠ 0 then (some find, m)
        else
          match Node.ofVar m.heap var left right with
          | none => (none, m)
          | some n =>
            let (newNode, h) := alloc m.heap n
            match m._unique_table.put h newNode newNode with
            | none => (none, { m with heap := h })
            | some t => (some newNode, { m with heap := h, _unique_table := t })

/-- The method `mK(const XddVal val)`. -/
def mKVal (m : NodeManager) (val : Int) : Option Nat × NodeManager :=
  if ¬ (val ≠ SpecialVals.NoVal) then (none, m)
  else if val = SpecialVals.TOP then (some m.top, m)
  else if val = SpecialVals.BOT then (some m.bot, m)
  else if val = 0 then (some m.zero, m)
  else
    let _tmp := Node.ofVal val
    match m._unique_table.get m.heap _tmp 0 with
    | none => (none, m)
    | some find =>
      if find ≠ 0 then (some find, m)
      else
        let (newNode, h) := alloc m.heap (Node.ofVal val)
        match m._unique_table.put h newNode newNode with
        | none => (none, { m with heap := h })
        | some t => (some newNode, { m with heap := h, _unique_table := t })

/-- The method `countNodes()`. -/
def countNodes (m : NodeManager) : Nat := m._unique_table.count

/-- A run of the manager: `Steps m m2` when `m2` is the state left by a sequence of
successful `mK` calls started in `m`.  The arguments are values of the C++ parameter
types: `var` a `uint64_t`, `val` an `int`. -/
inductive Steps : NodeManager → NodeManager → Prop
  | refl (m : NodeManager) : Steps m m
  | node (m m1 : NodeManager) (var : Nat) (left right : Nat) (p : Nat) (m2 : NodeManager) :
      Steps m m1 → var < 18446744073709551616 → m1.mK var left right = (some p, m2) →
      Steps m m2
  | leaf (m m1 : NodeManager) (val : Int) (p : Nat) (m2 : NodeManager) :
      Steps m m1 → SpecialVals.BOT ≤ val → val ≤ SpecialVals.TOP →
      m1.mKVal val = (some p, m2) → Steps m m2

/-- The states of a manager: those a run started from the fresh manager leaves. -/
def Reachable (m : NodeManager) : Prop := Steps NodeManager.new m

/-- The nodes owned by the manager: the values of the unique table and the members `bot`,
`top` and `zero`. -/
def owns (m : NodeManager) (p : Nat) : Prop :=
  p = m.bot ∨ p = m.top ∨ p = m.zero ∨ ∃ e ∈ m._unique_table.entries, e.value = p

end NodeManager

end otawa.xengine

/-! ## Predicates and example runs used by the statements -/

namespace otawa.xengine.NodeManager

open otawa.xengine elm

/-- The form of the object at address `p`, for a node of the unique table: a leaf made by
`Node(val)` whose value is none of the reserved ones, or an inner node made by
`Node(v, left, right)` from two distinct, older nodes. -/
def Shape (h : Heap) (p : Nat) (n : Node) : Prop :=
  (∃ v : Int, n = Node.ofVal v ∧ v ≠ SpecialVals.NoVal ∧ v ≠ SpecialVals.TOP ∧
      v ≠ SpecialVals.BOT ∧ v ≠ 0 ∧ SpecialVals.BOT ≤ v ∧ v ≤ SpecialVals.TOP) ∨
  (n._var ≠ SpecialVals.NoVar ∧ 0 < n._var ∧ n._var < 18446744073709551616 ∧
      n.left ≠ n.right ∧ n.left < p ∧ n.right < p ∧
      Node.ofVar h n._var n.left n.right = some n)

/-- The invariant kept by the two `mK` methods. -/
structure Inv (m : NodeManager) : Prop where
  bot_eq : m.bot = 1
  top_eq : m.top = 2
  zero_eq : m.zero = 3
  bot_node : deref m.heap 1 = some (Node.ofVal SpecialVals.BOT)
  top_node : deref m.heap 2 = some (Node.ofVal SpecialVals.TOP)
  zero_node : deref m.heap 3 = some (Node.ofVal 0)
  entry : ∀ e ∈ m._unique_table.entries, e.value = e.key ∧ 3 < e.key ∧
    ∃ n hk, deref m.heap e.key = some n ∧ HashKey.hash n = some hk ∧
      e.bucket = hk % m._unique_table.size
  owned : ∀ p, 3 < p → p ≤ m.heap.length → ∃ e ∈ m._unique_table.entries, e.key = p
  shape : ∀ p n, deref m.heap p = some n → 3 < p → Shape m.heap p n
  unique : ∀ p q a b, deref m.heap p = some a → deref m.heap q = some b →
    a.eq b = true → p = q

/-- The state left by the allocation of the node `n`, of hash `hk`, and its registration in
the unique table. -/
def added (m : NodeManager) (n : Node) (hk : Nat) : NodeManager :=
  { m with
    heap := m.heap ++ [n],
    _unique_table := { m._unique_table with
      entries := { bucket := hk % m._unique_table.size, key := m.heap.length + 1,
                   value := m.heap.length + 1 } :: m._unique_table.entries } }

/-- A run of four calls on a fresh manager: `mK(1)`, `mK(2)`, `mK(5, 4, 5)` and
`mK(7, 6, 4)`, where `4`, `5` and `6` are the addresses the former calls returned. -/
def demoCalls : List (Option Nat × NodeManager) :=
  let r1 := NodeManager.new.mKVal 1
  let r2 := r1.2.mKVal 2
  let r3 := r2.2.mK 5 4 5
  let r4 := r3.2.mK 7 6 4
  [r1, r2, r3, r4]

/-- The state the run `demoCalls` leaves. -/
def demo : NodeManager := (((NodeManager.new.mKVal 1).2.mKVal 2).2.mK 5 4 5).2.mK 7 6 4 |>.2

end otawa.xengine.NodeManager

namespace otawa.xengine

open otawa.xengine elm

/-- The sequences of inner-node variables along the root-to-leaf paths of the diagram at
address `p`: `Node.Path h p vs` when `vs` is the sequence of one such path. -/
inductive Node.Path (h : Heap) : Nat → List Nat → Prop
  | leaf (p : Nat) (n : Node) : deref h p = some n → n.isLeaf = true → Node.Path h p []
  | low (p : Nat) (n : Node) (vs : List Nat) : deref h p = some n → n.isLeaf = false →
      Node.Path h n.left vs → Node.Path h p (n._var :: vs)
  | high (p : Nat) (n : Node) (vs : List Nat) : deref h p = some n → n.isLeaf = false →
      Node.Path h n.right vs → Node.Path h p (n._var :: vs)

end otawa.xengine

namespace otawa.xengine.NodeManager

open otawa.xengine elm

/-- The obligation of the caller of `mK(var, left, right)` for the child `c`: when the
child is an inner node, `var` is smaller than its variable. -/
def respectsOrder (h : Heap) (var c : Nat) : Prop :=
  ∀ n, deref h c = some n → n.isLeaf = false → var < n._var

/-- The runs of successful `mK` calls in which the callers respect the variable order. -/
inductive OrderedSteps : NodeManager → NodeManager → Prop
  | refl (m : NodeManager) : OrderedSteps m m
  | node (m m1 : NodeManager) (var : Nat) (left right : Nat) (p : Nat) (m2 : NodeManager) :
      OrderedSteps m m1 → var < 18446744073709551616 →
      respectsOrder m1.heap var left → respectsOrder m1.heap var right →
      m1.mK var left right = (some p, m2) → OrderedSteps m m2
  | leaf (m m1 : NodeManager) (val : Int) (p : Nat) (m2 : NodeManager) :
      OrderedSteps m m1 → SpecialVals.BOT ≤ val → val ≤ SpecialVals.TOP →
      m1.mKVal val = (some p, m2) → OrderedSteps m m2

/-- Every inner node of the store is below the variables of its inner children. -/
def Ordered (h : Heap) : Prop :=
  ∀ p n, deref h p = some n → n.isLeaf = false →
    respectsOrder h n._var n.left ∧ respectsOrder h n._var n.right

end otawa.xengine.NodeManager

namespace otawa.xengine

open otawa.xengine elm

/-- The nodes reachable from the node at address `p` through `low()` and `high()`. -/
inductive Node.Reaches (h : Heap) : Nat → Nat → Prop
  | refl (p : Nat) : Node.Reaches h p p
  | low (p : Nat) (n : Node) (q : Nat) : deref h p = some n → n.isLeaf = false →
      Node.Reaches h n.left q → Node.Reaches h p q
  | high (p : Nat) (n : Node) (q : Nat) : deref h p = some n → n.isLeaf = false →
      Node.Reaches h n.right q → Node.Reaches h p q

end otawa.xengine

namespace otawa.xengine.NodeManager

open otawa.xengine elm

/-- The state a fresh manager is in after the call `mK(-1)`, which returns the address
`4`. -/
def demoNeg : NodeManager := (NodeManager.new.mKVal (-1)).2

/-- The state a fresh manager is in after the calls `mK(1)`, `mK(2)`, `mK(5, 4, 5)` and
`mK(3, 6, 4)`, in which the inner node of variable `3` is put above the one of
variable `5`. -/
def demoOrdered : NodeManager :=
  (((NodeManager.new.mKVal 1).2.mKVal 2).2.mK 5 4 5).2.mK 3 6 4 |>.2

end otawa.xengine.NodeManager

/-! ## The job producer of `LocalBBXddTimeProcessor` (`Code/LocalBBXddTimeProcessor.cpp`) -/

namespace otawa.xengine.LocalBBXddTimeProcessor

/-- Modelled from the spec: a block of the CFG collection (the class `Block` is declared
outside the sources): whether it is a basic block, and its in-edges in their order. -/
structure Block (Edge : Type) where
  isBasic : Bool
  inEdges : List Edge
deriving DecidableEq, Repr

/-- The members of `class Producer`.  An iterator is the list of the elements it has still
to visit, the current one first; the test `_block()` is `_block ≠ []`. -/
structure Producer (Edge : Type) where
  _block : List (Block Edge)
  _ins : List Edge
deriving DecidableEq, Repr

namespace Producer

variable {Edge : Type}

/-- The loop `while(_block() && !_block->isBasic()) _block++` of `nextBB`. -/
def skipNonBasic : List (Block Edge) → List (Block Edge)
  | [] => []
  | b :: bs => if !b.isBasic then skipNonBasic bs else b :: bs

/-- The method `Producer::nextBB`. -/
def nextBB (p : Producer Edge) : Producer Edge :=
  let blocks := skipNonBasic p._block
  match blocks with
  | [] => { p with _block := blocks }
  | b :: _ => { _block := blocks, _ins := b.inEdges }

/-- The constructor `Producer(proc, coll)`, with its assertion that the first block is not
basic; `none` when the assertion fails. -/
def new (coll : List (Block Edge)) : Option (Producer Edge) :=
  let p : Producer Edge := { _block := coll, _ins := [] }
  match p._block with
  | [] => some p
  | b :: _ => if !b.isBasic then some (nextBB p) else none

/-- The method `Producer::next`: the edge of the returned job, or `none` for `nullptr`,
and the state the call leaves.  The outer `none` is the reading `*_ins` of an iterator at
its end, which the source does not define. -/
def next (p : Producer Edge) : Option (Option Edge × Producer Edge) :=
  match p._block with
  | [] => some (none, p)
  | _ :: _ =>
    match p._ins with
    | [] => none
    | edge :: ins =>
      let p := { p with _ins := ins }
      let p := if ins.isEmpty then nextBB p else p
      some (some edge, p)

/-- The results of the first `n` calls of `next`. -/
def take : Nat → Producer Edge → Option (List (Option Edge))
  | 0, _ => some []
  | n + 1, p =>
    match next p with
    | none => none
    | some (job, p2) =>
      match take n p2 with
      | none => none
      | some jobs => some (job :: jobs)

/-- The enumeration the producer is meant to give: the in-edges of the basic blocks, in
block order. -/
def expected (coll : List (Block Edge)) : List Edge :=
  (coll.filter (fun b => b.isBasic)).flatMap (fun b => b.inEdges)

/-- A CFG collection: an entry block, a basic block of in-edge `1`, a basic block of
in-edge `2` and an exit block. -/
def demoColl : List (Block Nat) :=
  [⟨false, []⟩, ⟨true, [1]⟩, ⟨true, [2]⟩, ⟨false, [2]⟩]

end Producer

end otawa.xengine.LocalBBXddTimeProcessor

/-! ## The local-edge timing processor (`Code/LocalBBXddTimeProcessor.cpp`) -/

namespace otawa.xengine

/-- Modelled from the spec: the tags of the execution steps (`XStepType` is declared outside
the sources; the spec names `Use`, `Release`, `Branch` and `Split`). -/
inductive XStepType where
  | Use
  | Release
  | Branch
  | Split
deriving DecidableEq, Repr

namespace LocalBBXddTimeProcessor

/-- The collaborators of the processor, which are outside the sources and are parameters of
the embedding: the steps (`AbstractXStep`, with `type()`), the diagrams `X` (`Xdd`, with
`sub_saturated` and `maxLeaf`), the matrices (`XddMatrix`, with `VecXMat`), the compiler
(`XStepsMatrixCompiler::compileSequence`), the index `_rman->getTimePointerIdx()` and the
state `XddTimingState(_rman, _xman)` a computation starts from. -/
structure Env (Step X Matrix : Type) where
  type : Step → XStepType
  compileSequence : List Step → Matrix
  VecXMat : Matrix → List X → List X
  sub_saturated : X → X → X
  maxLeaf : X → Int
  getTimePointerIdx : Nat
  initState : List X

/-- The variables of `processEdge(e)`: the local vector `xsteps`, the local `state`, the
bag `BBTIMES(e)` in the order of the `add` calls, and, as a trace, the sequences handed to
the compiler so far (one per call of `computeTime`). -/
structure Run (Step X : Type) where
  xsteps : List Step
  state : List X
  bbtimes : List X
  compiled : List (List Step)
deriving DecidableEq, Repr

/-- How a call ends: normally, or on a failed `ASSERT`; in both cases with the values the
variables have at that point. -/
inductive Outcome (α : Type) where
  | done (r : α)
  | abort (r : α)
deriving DecidableEq, Repr

variable {Step X Matrix : Type}

/-- The method `computeTime(e, xsteps, state)`.  The statistics (`_stats->record`) and the
log do not touch the variables and are left out. -/
def computeTime (env : Env Step X Matrix) (r : Run Step X) : Outcome (Run Step X) :=
  let mat := env.compileSequence r.xsteps
  let r := { r with compiled := r.compiled ++ [r.xsteps] }
  let r := { r with state := env.VecXMat mat r.state }
  match r.state[env.getTimePointerIdx]? with
  | none => Outcome.abort r
  | some t =>
    if env.maxLeaf t > 0 then Outcome.done { r with bbtimes := r.bbtimes ++ [t] }
    else Outcome.abort r

/-- The loop `for(int i = 0; i < state.length(); i++) state[i] = state[i].sub_saturated(base)`
of `processEdge`, from the index `i`; `fuel` bounds the number of iterations. -/
def rebaseLoop (sub : X → X → X) (base : X) : Nat → Nat → List X → List X
  | 0, _, state => state
  | fuel + 1, i, state =>
    if h : i < state.length then
      rebaseLoop sub base fuel (i + 1) (state.set i (sub state[i] base))
    else state

/-- The body of the loop `for(auto xstep: *XSTEPS(e))` of `processEdge`. -/
def onStep (env : Env Step X Matrix) (r : Run Step X) (xstep : Step) :
    Outcome (Run Step X) :=
  if env.type xstep ≠ XStepType.Split then
    Outcome.done { r with xsteps := r.xsteps ++ [xstep] }
  else
    match computeTime env r with
    | Outcome.abort r => Outcome.abort r
    | Outcome.done r =>
      let r := { r with xsteps := [] }
      match r.state[env.getTimePointerIdx]? with
      | none => Outcome.abort r
      | some base =>
        Outcome.done { r with
          state := rebaseLoop env.sub_saturated base r.state.length 0 r.state }

/-- The loop `for(auto xstep: *XSTEPS(e))` of `processEdge`. -/
def forSteps (env : Env Step X Matrix) : List Step → Run Step X → Outcome (Run Step X)
  | [], r => Outcome.done r
  | xstep :: rest, r =>
    match onStep env r xstep with
    | Outcome.abort r => Outcome.abort r
    | Outcome.done r => forSteps env rest r

/-- The method `processEdge(e)`, for the sequence `XSTEPS(e)` and the bag `BBTIMES(e)` the
edge has before the call. -/
def processEdge (env : Env Step X Matrix) (XSTEPS : List Step) (BBTIMES : List X) :
    Outcome (Run Step X) :=
  let r : Run Step X :=
    { xsteps := [], state := env.initState, bbtimes := BBTIMES, compiled := [] }
  match forSteps env XSTEPS r with
  | Outcome.abort r => Outcome.abort r
  | Outcome.done r =>
    if !r.xsteps.isEmpty then computeTime env r else Outcome.done r

/-- The number of `Split` markers of a step sequence. -/
def splits (env : Env Step X Matrix) (s : List Step) : Nat :=
  s.countP (fun x => env.type x == XStepType.Split)

/-- The steps after the last `Split` of a sequence (the whole sequence when it has none). -/
def afterLastSplit (env : Env Step X Matrix) (s : List Step) : List Step :=
  (s.reverse.takeWhile (fun x => env.type x != XStepType.Split)).reverse

/-- A step of the example model: its tag and the time it takes. -/
structure DemoStep where
  type : XStepType
  time : Int
deriving DecidableEq, Repr

/-- An example of collaborators, after the scenarios of the spec: the diagrams are single
leaves (`Int`), a state has the time pointer at index `0` and one resource, both `0` at the
start; the matrix of a sequence adds the total time of its steps to every entry;
`sub_saturated` is the subtraction clamped to `0` below. -/
def demoEnv : Env DemoStep Int Int where
  type := fun x => x.type
  compileSequence := fun xs => (xs.map (fun x => x.time)).sum
  VecXMat := fun d state => state.map (fun x => x + d)
  sub_saturated := fun a b => max (a - b) 0
  maxLeaf := fun x => x
  getTimePointerIdx := 0
  initState := [0, 0]

end LocalBBXddTimeProcessor

end otawa.xengine

namespace otawa.xengine.LocalBBXddTimeProcessor

/-- The step sequence of the fourth scenario of the spec: `Use` of time `4`, `Split`, `Use`
of time `6`. -/
def demoSteps : List DemoStep :=
  [⟨XStepType.Use, 4⟩, ⟨XStepType.Split, 0⟩, ⟨XStepType.Use, 6⟩]

/-- A step sequence whose second segment takes no time: `Use` of time `4`, `Split`, `Branch`
of time `0`. -/
def demoStepsFail : List DemoStep :=
  [⟨XStepType.Use, 4⟩, ⟨XStepType.Split, 0⟩, ⟨XStepType.Branch, 0⟩]

end otawa.xengine.LocalBBXddTimeProcessor

namespace otawa.xengine.LocalBBXddTimeProcessor

/-- The variables of `processEdge` in the example, when the first `Split` is met: the step
`Use` of time `4` is pending and the state is the initial one. -/
def demoRun : Run DemoStep Int :=
  { xsteps := [⟨XStepType.Use, 4⟩], state := [0, 0], bbtimes := [], compiled := [] }

end otawa.xengine.LocalBBXddTimeProcessor

/-! ## The container comparator (`Code/Node.hpp`) -/

namespace elm.Comparator

open otawa.xengine

/-- The function `Comparator<const Node *>::compare(n1, n2)`.  The difference of the values
is an `int` subtraction; the difference of the variables is a `uint64_t` subtraction
converted to `int`.  `fuel` bounds the depth of the recursion. -/
def compare (h : Heap) : Nat → Nat → Nat → Option Int
  | 0, _, _ => none
  | fuel + 1, n1, n2 =>
    match deref h n1, deref h n2 with
    | some a, some b =>
      if a.isLeaf && b.isLeaf then
        match a.val, b.val with
        | some x, some y => some (wrap32 (x - y))
        | _, _ => none
      else if a.isLeaf && !b.isLeaf then some 1
      else if !a.isLeaf && b.isLeaf then some (-1)
      else
        match a.var, b.var with
        | some v1, some v2 =>
          if v1 ≠ v2 then
            some (wrap32 (((v1 : Int) - (v2 : Int)) % 18446744073709551616))
          else
            match a.low, b.low, a.high, b.high with
            | some l1, some l2, some h1, some h2 =>
              if l1 = l2 ∧ h1 = h2 then some 0
              else
                match compare h fuel l1 l2 with
                | some res => if res = 0 then compare h fuel h1 h2 else some res
                | none => none
            | _, _, _, _ => none
        | _, _ => none
    | _, _ => none

end elm.Comparator

namespace otawa.xengine

/-- The diagrams at the addresses `a` and `b` are the same tree when unfolded: both are
leaves of equal value, or both are inner nodes of equal variable whose `high` children are
the same tree and whose `low` children are the same tree. -/
inductive Node.SameTree (h : Heap) : Nat → Nat → Prop
  | leaf (a b : Nat) (na nb : Node) : deref h a = some na → deref h b = some nb →
      na.isLeaf = true → nb.isLeaf = true → na._val = nb._val → Node.SameTree h a b
  | inner (a b : Nat) (na nb : Node) : deref h a = some na → deref h b = some nb →
      na.isLeaf = false → nb.isLeaf = false → na._var = nb._var →
      Node.SameTree h na.right nb.right → Node.SameTree h na.left nb.left →
      Node.SameTree h a b

end otawa.xengine

/-! ## The free store -/

namespace otawa.xengine

open otawa.xengine elm

theorem deref_some_iff {h : Heap} {p : Nat} {n : Node} :
    deref h p = some n ↔ 0 < p ∧ h[p - 1]? = some n := by
  unfold deref
  by_cases hp : p = 0
  · simp [hp]
  · simp [hp, Nat.pos_of_ne_zero hp]

theorem deref_bounds {h : Heap} {p : Nat} {n : Node} (hd : deref h p = some n) :
    0 < p ∧ p ≤ h.length := by
  obtain ⟨h0, h1⟩ := deref_some_iff.mp hd
  have := (List.getElem?_eq_some.mp h1).1
  omega

theorem deref_isSome {h : Heap} {p : Nat} (h0 : 0 < p) (h1 : p ≤ h.length) :
    ∃ n, deref h p = some n := by
  have hlt : p - 1 < h.length := by omega
  exact ⟨h[p - 1], deref_some_iff.mpr ⟨h0, List.getElem?_eq_getElem hlt⟩⟩

theorem deref_append {h : Heap} {p : Nat} {n : Node} (t : Heap) (hd : deref h p = some n) :
    deref (h ++ t) p = some n := by
  obtain ⟨h0, h1⟩ := deref_some_iff.mp hd
  have hlt := (List.getElem?_eq_some.mp h1).1
  exact deref_some_iff.mpr ⟨h0, by rw [List.getElem?_append_left hlt]; exact h1⟩

theorem deref_append_new (h : Heap) (n : Node) : deref (h ++ [n]) (h.length + 1) = some n := by
  apply deref_some_iff.mpr
  simp

theorem deref_append_cases {h : Heap} {x : Node} {p : Nat} {n : Node}
    (hd : deref (h ++ [x]) p = some n) :
    deref h p = some n ∨ (p = h.length + 1 ∧ n = x) := by
  obtain ⟨h0, h1⟩ := deref_some_iff.mp hd
  by_cases hlt : p - 1 < h.length
  · left
    rw [List.getElem?_append_left hlt] at h1
    exact deref_some_iff.mpr ⟨h0, h1⟩
  · right
    have hb := (deref_bounds hd).2
    simp at hb
    have hp : p = h.length + 1 := by omega
    subst hp
    rw [deref_append_new] at hd
    exact ⟨rfl, (Option.some.inj hd).symm⟩

theorem deref_of_append {h t : Heap} {p : Nat} {n n2 : Node} (hd : deref h p = some n)
    (hd2 : deref (h ++ t) p = some n2) : n2 = n := by
  rw [deref_append t hd] at hd2
  exact (Option.some.inj hd2).symm

end otawa.xengine

namespace otawa.xengine.Node

open otawa.xengine elm

theorem eq_iff {a b : Node} :
    a.eq b = true ↔ a._var = b._var ∧ a._val = b._val ∧ a.left = b.left ∧ a.right = b.right := by
  simp [Node.eq, and_assoc]

theorem eq_refl (a : Node) : a.eq a = true := eq_iff.mpr ⟨rfl, rfl, rfl, rfl⟩

theorem eq_symm {a b : Node} (h : a.eq b = true) : b.eq a = true := by
  obtain ⟨h1, h2, h3, h4⟩ := eq_iff.mp h
  exact eq_iff.mpr ⟨h1.symm, h2.symm, h3.symm, h4.symm⟩

theorem eq_trans {a b c : Node} (h : a.eq b = true) (hbc : b.eq c = true) :
    a.eq c = true := by
  obtain ⟨h1, h2, h3, h4⟩ := eq_iff.mp h
  obtain ⟨g1, g2, g3, g4⟩ := eq_iff.mp hbc
  exact eq_iff.mpr ⟨h1.trans g1, h2.trans g2, h3.trans g3, h4.trans g4⟩

theorem ofVar_some {h : Heap} {v : Nat} {l r : Nat} {n : Node}
    (hn : ofVar h v l r = some n) :
    ∃ a b, deref h l = some a ∧ deref h r = some b ∧
      n = { left := l, right := r, _var := v, _val := SpecialVals.NoVal,
            _max := max a._max b._max, _min := min a._min b._min } := by
  unfold ofVar at hn
  cases hl : deref h l with
  | none => simp [hl] at hn
  | some a =>
    cases hr : deref h r with
    | none => simp [hl, hr] at hn
    | some b =>
      simp [hl, hr] at hn
      exact ⟨a, b, rfl, rfl, hn.symm⟩

theorem ofVar_append {h : Heap} {v : Nat} {l r : Nat} {n : Node} (t : Heap)
    (hn : ofVar h v l r = some n) : ofVar (h ++ t) v l r = some n := by
  obtain ⟨a, b, ha, hb, hn2⟩ := ofVar_some hn
  unfold ofVar
  rw [deref_append t ha, deref_append t hb, hn2]

end otawa.xengine.Node

namespace otawa.xengine

open otawa.xengine elm

theorem HashKey.hash_congr {a b : Node} (h : a.eq b = true) :
    HashKey.hash a = HashKey.hash b := by
  obtain ⟨h1, h2, h3, h4⟩ := Node.eq_iff.mp h
  simp [HashKey.hash, Node.isLeaf, Node.val, Node.var, Node.low, Node.high, h1, h2, h3, h4]

end otawa.xengine

/-! ## The unique table -/

namespace elm.HashMap

open otawa.xengine elm

theorem scan_congr (h h2 : Heap) (i : Nat) (key : Node) (es : List Entry)
    (hk : ∀ e ∈ es, deref h2 e.key = deref h e.key) :
    scan h2 i key es = scan h i key es := by
  induction es with
  | nil => rfl
  | cons e es ih =>
    have h1 := hk e (List.mem_cons_self _ _)
    have h2 := ih (fun x hx => hk x (List.mem_cons_of_mem _ hx))
    simp only [scan, h1, h2]

theorem scan_cases (h : Heap) (i : Nat) (key : Node) (es : List Entry)
    (hk : ∀ e ∈ es, ∃ n, deref h e.key = some n) :
    (scan h i key es = some none ∧
      ∀ e ∈ es, e.bucket = i → ∀ n, deref h e.key = some n → n.eq key = false) ∨
    (∃ e ∈ es, scan h i key es = some (some e) ∧
      ∃ n, deref h e.key = some n ∧ n.eq key = true) := by
  induction es with
  | nil => left; simp [scan]
  | cons e es ih =>
    obtain ⟨n, hn⟩ := hk e (List.mem_cons_self _ _)
    have ih2 := ih (fun x hx => hk x (List.mem_cons_of_mem _ hx))
    by_cases hb : e.bucket = i
    · by_cases he : HashKey.equals n key = true
      · right
        refine ⟨e, List.mem_cons_self _ _, ?_, n, hn, he⟩
        simp [scan, hb, hn, he]
      · have hs : scan h i key (e :: es) = scan h i key es := by
          simp [scan, hb, hn, he]
        rw [hs]
        rcases ih2 with ⟨h1, h2⟩ | ⟨x, hx, h1, h2⟩
        · left
          refine ⟨h1, ?_⟩
          intro y hy hyb m hm
          rcases List.mem_cons.mp hy with rfl | hy2
          · rw [hn] at hm
            cases hm
            simpa [HashKey.equals] using he
          · exact h2 y hy2 hyb m hm
        · right
          exact ⟨x, List.mem_cons_of_mem _ hx, h1, h2⟩
    · have hs : scan h i key (e :: es) = scan h i key es := by
        simp [scan, hb]
      rw [hs]
      rcases ih2 with ⟨h1, h2⟩ | ⟨x, hx, h1, h2⟩
      · left
        refine ⟨h1, ?_⟩
        intro y hy hyb m hm
        rcases List.mem_cons.mp hy with rfl | hy2
        · exact absurd hyb hb
        · exact h2 y hy2 hyb m hm
      · right
        exact ⟨x, List.mem_cons_of_mem _ hx, h1, h2⟩

end elm.HashMap

/-! ## The invariant of the manager -/

namespace otawa.xengine.NodeManager

open otawa.xengine elm

theorem Shape.append {h : Heap} {p : Nat} {n : Node} (t : Heap) (hs : Shape h p n) :
    Shape (h ++ t) p n := by
  rcases hs with hl | ⟨h1, h2, h3, h4, h5, h6, h7⟩
  · exact Or.inl hl
  · exact Or.inr ⟨h1, h2, h3, h4, h5, h6, Node.ofVar_append t h7⟩

theorem inv_new : Inv NodeManager.new := by
  refine ⟨rfl, rfl, rfl, rfl, rfl, rfl, ?_, ?_, ?_, ?_⟩
  · intro e he
    simp [NodeManager.new] at he
  · intro p h3 hp
    simp [NodeManager.new, alloc] at hp
    omega
  · intro p n hd h3
    have := (deref_bounds hd).2
    simp [NodeManager.new, alloc] at this
    omega
  · intro p q a b ha hb hab
    have h1 := deref_bounds ha
    have h2 := deref_bounds hb
    simp [NodeManager.new, alloc] at h1 h2
    have hp : p = 1 ∨ p = 2 ∨ p = 3 := by omega
    have hq : q = 1 ∨ q = 2 ∨ q = 3 := by omega
    rcases hp with rfl | rfl | rfl <;> rcases hq with rfl | rfl | rfl <;>
      first
      | rfl
      | (simp [NodeManager.new, alloc, deref] at ha hb
         subst ha
         subst hb
         simp [Node.eq, Node.ofVal, SpecialVals.BOT, SpecialVals.TOP] at hab)

/-- Lookup of a prototype in the table of a manager that satisfies the invariant: either
no stored node equals the prototype, or the cell of an equal node is found. -/
theorem lookup_cases {m : NodeManager} (hI : Inv m) (key : Node) (hk : Nat)
    (hh : HashKey.hash key = some hk) :
    (HashMap.lookup m.heap m._unique_table key = some none ∧
      ∀ p n, 3 < p → deref m.heap p = some n → n.eq key = false) ∨
    (∃ e ∈ m._unique_table.entries,
      HashMap.lookup m.heap m._unique_table key = some (some e) ∧
      ∃ n, deref m.heap e.key = some n ∧ n.eq key = true) := by
  have hE : ∀ e ∈ m._unique_table.entries, ∃ n, deref m.heap e.key = some n := by
    intro e he
    obtain ⟨_, _, n, _, hn, _⟩ := hI.entry e he
    exact ⟨n, hn⟩
  have hl : HashMap.lookup m.heap m._unique_table key =
      HashMap.scan m.heap (hk % m._unique_table.size) key m._unique_table.entries := by
    simp [HashMap.lookup, hh]
  rw [hl]
  rcases HashMap.scan_cases m.heap (hk % m._unique_table.size) key _ hE with ⟨h1, h2⟩ | h3
  · left
    refine ⟨h1, ?_⟩
    intro p n h3 hn
    obtain ⟨e, he, hep⟩ := hI.owned p h3 (deref_bounds hn).2
    obtain ⟨_, _, n2, hk2, hn2, hh2, hb⟩ := hI.entry e he
    rw [hep, hn] at hn2
    cases hn2
    by_cases heq : n.eq key = true
    · have := HashKey.hash_congr heq
      rw [hh2, hh] at this
      cases this
      have := h2 e he hb n (by rw [hep]; exact hn)
      rw [this] at heq
      cases heq
    · simpa using heq
  · right
    exact h3

theorem lookup_append {m : NodeManager} (hI : Inv m) (key : Node) (t : Heap) :
    HashMap.lookup (m.heap ++ t) m._unique_table key =
      HashMap.lookup m.heap m._unique_table key := by
  unfold HashMap.lookup
  cases HashKey.hash key with
  | none => rfl
  | some hk =>
    apply HashMap.scan_congr
    intro e he
    obtain ⟨_, _, n, _, hn, _⟩ := hI.entry e he
    rw [hn, deref_append t hn]

theorem put_new {m : NodeManager} (hI : Inv m) (n : Node) (hk : Nat)
    (hh : HashKey.hash n = some hk)
    (hl : HashMap.lookup m.heap m._unique_table n = some none) :
    HashMap.put (m.heap ++ [n]) m._unique_table (m.heap.length + 1) (m.heap.length + 1) =
      some (m.added n hk)._unique_table := by
  unfold HashMap.put
  rw [deref_append_new]
  simp only [hh, lookup_append hI, hl]
  rfl

/-- What the search of the prototype `_tmp` gives in a manager that satisfies the
invariant: the address of a stored node equal to it, or null when there is none. -/
theorem get_cases {m : NodeManager} (hI : Inv m) (key : Node) (hk : Nat)
    (hh : HashKey.hash key = some hk) :
    (HashMap.get m.heap m._unique_table key 0 = some 0 ∧
      HashMap.lookup m.heap m._unique_table key = some none ∧
      ∀ p n, 3 < p → deref m.heap p = some n → n.eq key = false) ∨
    (∃ q n, HashMap.get m.heap m._unique_table key 0 = some q ∧ 3 < q ∧
      deref m.heap q = some n ∧ n.eq key = true) := by
  rcases lookup_cases hI key hk hh with ⟨h1, h2⟩ | ⟨e, he, h1, n, hn, hne⟩
  · left
    exact ⟨by simp [HashMap.get, h1], h1, h2⟩
  · right
    obtain ⟨hv, h3, _⟩ := hI.entry e he
    refine ⟨e.key, n, ?_, h3, hn, hne⟩
    simp [HashMap.get, h1, hv]

theorem isLeaf_ofVal (v : Int) : (Node.ofVal v).isLeaf = true := by
  simp [Node.isLeaf, Node.ofVal]

theorem val_ofVal (v : Int) : (Node.ofVal v).val = some v := by
  unfold Node.val
  rw [isLeaf_ofVal]
  rfl

theorem hash_ofVal (v : Int) :
    HashKey.hash (Node.ofVal v) = some (HashKey.subHash (HashKey.toUInt64 v) HashKey.seed) := by
  unfold HashKey.hash
  rw [isLeaf_ofVal, val_ofVal]
  rfl

/-- The outcomes of `mK(val)` in a manager that satisfies the invariant. -/
theorem mKVal_cases {m : NodeManager} (hI : Inv m) (v : Int) :
    (v = SpecialVals.NoVal ∧ m.mKVal v = (none, m)) ∨
    (v = SpecialVals.TOP ∧ m.mKVal v = (some m.top, m)) ∨
    (v = SpecialVals.BOT ∧ m.mKVal v = (some m.bot, m)) ∨
    (v = 0 ∧ m.mKVal v = (some m.zero, m)) ∨
    (v ≠ SpecialVals.NoVal ∧ v ≠ SpecialVals.TOP ∧ v ≠ SpecialVals.BOT ∧ v ≠ 0 ∧
      ((∃ q n, 3 < q ∧ deref m.heap q = some n ∧ n.eq (Node.ofVal v) = true ∧
          m.mKVal v = (some q, m)) ∨
       ((∀ p n, 3 < p → deref m.heap p = some n → n.eq (Node.ofVal v) = false) ∧
          ∃ hk, HashKey.hash (Node.ofVal v) = some hk ∧
            m.mKVal v = (some (m.heap.length + 1), m.added (Node.ofVal v) hk)))) := by
  by_cases h1 : v = SpecialVals.NoVal
  · left
    exact ⟨h1, by simp [mKVal, h1]⟩
  by_cases h2 : v = SpecialVals.TOP
  · right; left
    refine ⟨h2, ?_⟩
    unfold mKVal
    rw [if_neg (not_not.mpr h1), if_pos h2]
  by_cases h3 : v = SpecialVals.BOT
  · right; right; left
    refine ⟨h3, ?_⟩
    unfold mKVal
    rw [if_neg (not_not.mpr h1), if_neg h2, if_pos h3]
  by_cases h4 : v = 0
  · right; right; right; left
    refine ⟨h4, ?_⟩
    unfold mKVal
    rw [if_neg (not_not.mpr h1), if_neg h2, if_neg h3, if_pos h4]
  right; right; right; right
  refine ⟨h1, h2, h3, h4, ?_⟩
  rcases get_cases hI (Node.ofVal v) _ (hash_ofVal v) with ⟨hg, hl, hn⟩ | ⟨q, n, hg, hq, hn, he⟩
  · right
    refine ⟨hn, _, hash_ofVal v, ?_⟩
    have hp := put_new hI (Node.ofVal v) _ (hash_ofVal v) hl
    unfold mKVal
    rw [if_neg (not_not.mpr h1), if_neg h2, if_neg h3, if_neg h4]
    simp only [hg, alloc, hp]
    simp [added]
  · left
    refine ⟨q, n, hq, hn, he, ?_⟩
    have hq0 : q ≠ 0 := by omega
    unfold mKVal
    rw [if_neg (not_not.mpr h1), if_neg h2, if_neg h3, if_neg h4]
    simp [hg, hq0]

/-- The outcomes of `mK(var, left, right)` in a manager that satisfies the invariant. -/
theorem mK_cases {m : NodeManager} (hI : Inv m) (var l r : Nat) :
    (m.mK var l r = (none, m)) ∨
    (l ≠ 0 ∧ var ≠ SpecialVals.NoVar ∧ l = r ∧ m.mK var l r = (some l, m)) ∨
    (l ≠ r ∧ var ≠ SpecialVals.NoVar ∧ 0 < var ∧
      ∃ tmp, Node.ofVar m.heap var l r = some tmp ∧
        ((∃ q n, 3 < q ∧ deref m.heap q = some n ∧ n.eq tmp = true ∧
            m.mK var l r = (some q, m)) ∨
         ((∀ p n, 3 < p → deref m.heap p = some n → n.eq tmp = false) ∧
            ∃ hk, HashKey.hash tmp = some hk ∧
              m.mK var l r = (some (m.heap.length + 1), m.added tmp hk)))) := by
  by_cases h1 : l ≠ 0 ∧ r ≠ 0
  swap
  · left
    unfold mK
    rw [if_pos h1]
  by_cases h2 : var ≠ SpecialVals.NoVar
  swap
  · left
    unfold mK
    rw [if_neg (not_not.mpr h1), if_pos h2]
  by_cases h3 : l = r
  · right; left
    refine ⟨h1.1, h2, h3, ?_⟩
    unfold mK
    rw [if_neg (not_not.mpr h1), if_neg (not_not.mpr h2), if_pos h3]
  have hu : m.mK var l r =
      match Node.ofVar m.heap var l r with
      | none => (none, m)
      | some _tmp =>
        match m._unique_table.get m.heap _tmp 0 with
        | none => (none, m)
        | some find =>
          if find ≠ 0 then (some find, m)
          else
            match Node.ofVar m.heap var l r with
            | none => (none, m)
            | some n =>
              match m._unique_table.put (m.heap ++ [n]) (m.heap.length + 1)
                  (m.heap.length + 1) with
              | none => (none, { m with heap := m.heap ++ [n] })
              | some t => (some (m.heap.length + 1),
                  { m with heap := m.heap ++ [n], _unique_table := t }) := by
    unfold mK
    rw [if_neg (not_not.mpr h1), if_neg (not_not.mpr h2), if_neg h3]
    rfl
  rw [hu]
  cases ht : Node.ofVar m.heap var l r with
  | none => left; rfl
  | some tmp =>
    obtain ⟨a, b, ha, hb, htmp⟩ := Node.ofVar_some ht
    cases hh : HashKey.hash tmp with
    | none =>
      left
      simp [HashMap.get, HashMap.lookup, hh]
    | some hk =>
      have hv : 0 < var := by
        by_contra hc
        have hv0 : var = 0 := by omega
        have hvar : tmp.var = none := by
          rw [htmp]
          simp [Node.var, hv0]
        have hleaf : tmp.isLeaf = false := by
          rw [htmp]
          simpa [Node.isLeaf] using h2
        have : HashKey.hash tmp = none := by
          unfold HashKey.hash
          rw [hvar, hleaf]
          rfl
        rw [this] at hh
        cases hh
      right; right
      refine ⟨h3, h2, hv, tmp, rfl, ?_⟩
      rcases get_cases hI tmp hk hh with ⟨hg, hl, hn⟩ | ⟨q, n, hg, hq, hn, he⟩
      · right
        refine ⟨hn, hk, hh, ?_⟩
        have hp := put_new hI tmp hk hh hl
        simp only [hg, hp]
        simp [added]
      · left
        refine ⟨q, n, hq, hn, he, ?_⟩
        have hq0 : q ≠ 0 := by omega
        simp [hg, hq0]

theorem Inv.heap_len {m : NodeManager} (hI : Inv m) : 3 ≤ m.heap.length :=
  (deref_bounds hI.zero_node).2

theorem Inv.low_nodes {m : NodeManager} (hI : Inv m) {p : Nat} {a : Node}
    (ha : deref m.heap p = some a) (hp : p ≤ 3) :
    a = Node.ofVal SpecialVals.BOT ∨ a = Node.ofVal SpecialVals.TOP ∨ a = Node.ofVal 0 := by
  have h0 := (deref_bounds ha).1
  have hc : p = 1 ∨ p = 2 ∨ p = 3 := by omega
  rcases hc with rfl | rfl | rfl
  · rw [hI.bot_node] at ha; cases ha; exact Or.inl rfl
  · rw [hI.top_node] at ha; cases ha; exact Or.inr (Or.inl rfl)
  · rw [hI.zero_node] at ha; cases ha; exact Or.inr (Or.inr rfl)

theorem inv_added {m : NodeManager} (hI : Inv m) (n : Node) (hk : Nat)
    (hh : HashKey.hash n = some hk)
    (hs : Shape (m.heap ++ [n]) (m.heap.length + 1) n)
    (hne : ∀ p a, deref m.heap p = some a → a.eq n = false) :
    Inv (m.added n hk) := by
  have hlen := hI.heap_len
  refine ⟨hI.bot_eq, hI.top_eq, hI.zero_eq, deref_append _ hI.bot_node,
    deref_append _ hI.top_node, deref_append _ hI.zero_node, ?_, ?_, ?_, ?_⟩
  · intro e he
    rcases List.mem_cons.mp he with rfl | he2
    · refine ⟨rfl, ?_, n, hk, deref_append_new _ _, hh, rfl⟩
      show 3 < m.heap.length + 1
      omega
    · obtain ⟨h1, h2, a, k, h3, h4, h5⟩ := hI.entry e he2
      exact ⟨h1, h2, a, k, deref_append _ h3, h4, h5⟩
  · intro p h3 hp
    have hp2 : p ≤ m.heap.length + 1 := by simpa [added] using hp
    by_cases hp3 : p = m.heap.length + 1
    · exact ⟨_, List.mem_cons_self _ _, hp3.symm⟩
    · obtain ⟨e, he, hep⟩ := hI.owned p h3 (by omega)
      exact ⟨e, List.mem_cons_of_mem _ he, hep⟩
  · intro p x hx h3
    rcases deref_append_cases hx with h1 | ⟨h1, h2⟩
    · exact (hI.shape p x h1 h3).append _
    · subst h1
      subst h2
      exact hs
  · intro p q a b ha hb hab
    rcases deref_append_cases ha with h1 | ⟨h1, h2⟩
    · rcases deref_append_cases hb with g1 | ⟨g1, g2⟩
      · exact hI.unique p q a b h1 g1 hab
      · subst g2
        rw [hne p a h1] at hab
        cases hab
    · rcases deref_append_cases hb with g1 | ⟨g1, g2⟩
      · subst h2
        have := Node.eq_symm hab
        rw [hne q b g1] at this
        cases this
      · rw [h1, g1]

/-- What a successful `mK(val)` leaves: the invariant, a free store that extends the former
one, and at the returned address a node equal to `Node(val)`. -/
theorem mKVal_post {m m2 : NodeManager} {v : Int} {p : Nat} (hI : Inv m)
    (h1 : SpecialVals.BOT ≤ v) (h2 : v ≤ SpecialVals.TOP)
    (h : m.mKVal v = (some p, m2)) :
    Inv m2 ∧ (∃ t, m2.heap = m.heap ++ t) ∧ m2.owns p ∧
      deref m2.heap p = some (Node.ofVal v) := by
  rcases mKVal_cases hI v with ⟨_, hc⟩ | ⟨hv, hc⟩ | ⟨hv, hc⟩ | ⟨hv, hc⟩ |
      ⟨n1, n2, n3, n4, ⟨q, n, hq, hn, he, hc⟩ | ⟨hne, hk, hh, hc⟩⟩
  all_goals rw [hc] at h
  all_goals simp only [Prod.mk.injEq, Option.some.injEq] at h
  · exact absurd h.1 (by simp)
  · obtain ⟨rfl, rfl⟩ := h
    refine ⟨hI, ⟨[], by simp⟩, Or.inr (Or.inl rfl), ?_⟩
    rw [hI.top_eq, hv]
    exact hI.top_node
  · obtain ⟨rfl, rfl⟩ := h
    refine ⟨hI, ⟨[], by simp⟩, Or.inl rfl, ?_⟩
    rw [hI.bot_eq, hv]
    exact hI.bot_node
  · obtain ⟨rfl, rfl⟩ := h
    refine ⟨hI, ⟨[], by simp⟩, Or.inr (Or.inr (Or.inl rfl)), ?_⟩
    rw [hI.zero_eq, hv]
    exact hI.zero_node
  · obtain ⟨rfl, rfl⟩ := h
    obtain ⟨e, he1, he2⟩ := hI.owned q hq (deref_bounds hn).2
    refine ⟨hI, ⟨[], by simp⟩, Or.inr (Or.inr (Or.inr ⟨e, he1, ?_⟩)), ?_⟩
    · rw [(hI.entry e he1).1, he2]
    · rcases hI.shape q n hn hq with ⟨w, hw, _⟩ | ⟨hv, _⟩
      · subst hw
        have := (Node.eq_iff.mp he).2.1
        simp only [Node.ofVal] at this
        rw [hn, this]
      · have := (Node.eq_iff.mp he).1
        exact absurd this hv
  · obtain ⟨rfl, rfl⟩ := h
    refine ⟨?_, ⟨[Node.ofVal v], rfl⟩, ?_, deref_append_new _ _⟩
    · apply inv_added hI _ _ hh
      · exact Or.inl ⟨v, rfl, n1, n2, n3, n4, h1, h2⟩
      · intro p a ha
        by_cases hp : 3 < p
        · exact hne p a hp ha
        · rcases hI.low_nodes ha (by omega) with rfl | rfl | rfl
          · simpa [Node.eq, Node.ofVal] using Ne.symm n3
          · simpa [Node.eq, Node.ofVal] using Ne.symm n2
          · simpa [Node.eq, Node.ofVal] using Ne.symm n4
    · exact Or.inr (Or.inr (Or.inr ⟨_, List.mem_cons_self _ _, rfl⟩))

theorem isLeaf_ofVar {h : Heap} {var l r : Nat} {tmp : Node}
    (ht : Node.ofVar h var l r = some tmp) :
    tmp._var = var ∧ tmp.left = l ∧ tmp.right = r ∧ tmp._val = SpecialVals.NoVal := by
  obtain ⟨a, b, _, _, htmp⟩ := Node.ofVar_some ht
  subst htmp
  exact ⟨rfl, rfl, rfl, rfl⟩

/-- What a successful `mK(var, left, right)` leaves: the invariant, a free store that extends
the former one, and, when the children differ, at the returned address the node
`Node(var, left, right)`. -/
theorem mK_post {m m2 : NodeManager} {var l r p : Nat} (hI : Inv m)
    (hvar : var < 18446744073709551616)
    (h : m.mK var l r = (some p, m2)) :
    Inv m2 ∧ (∃ t, m2.heap = m.heap ++ t) ∧
      ((l = r ∧ p = l ∧ m2 = m) ∨
       (l ≠ r ∧ m2.owns p ∧ 3 < p ∧ ∃ tmp, Node.ofVar m2.heap var l r = some tmp ∧
          deref m2.heap p = some tmp)) := by
  rcases mK_cases hI var l r with hc | ⟨_, _, hlr, hc⟩ |
      ⟨hlr, hv, hv0, tmp, ht, ⟨q, n, hq, hn, he, hc⟩ | ⟨hne, hk, hh, hc⟩⟩
  all_goals rw [hc] at h
  all_goals simp only [Prod.mk.injEq, Option.some.injEq] at h
  · exact absurd h.1 (by simp)
  · obtain ⟨rfl, rfl⟩ := h
    exact ⟨hI, ⟨[], by simp⟩, Or.inl ⟨hlr, rfl, rfl⟩⟩
  · obtain ⟨rfl, rfl⟩ := h
    obtain ⟨e, he1, he2⟩ := hI.owned q hq (deref_bounds hn).2
    refine ⟨hI, ⟨[], by simp⟩, Or.inr ⟨hlr, Or.inr (Or.inr (Or.inr ⟨e, he1, ?_⟩)), hq,
      tmp, ht, ?_⟩⟩
    · rw [(hI.entry e he1).1, he2]
    · obtain ⟨t1, t2, t3, t4⟩ := isLeaf_ofVar ht
      obtain ⟨e1, e2, e3, e4⟩ := Node.eq_iff.mp he
      rcases hI.shape q n hn hq with ⟨w, hw, _⟩ | ⟨_, _, _, _, _, _, hs⟩
      · subst hw
        rw [t1] at e1
        exact absurd e1.symm hv
      · rw [e1, e3, e4, t1, t2, t3, ht] at hs
        rw [hn, hs]
  · obtain ⟨rfl, rfl⟩ := h
    obtain ⟨t1, t2, t3, t4⟩ := isLeaf_ofVar ht
    obtain ⟨a, b, ha, hb, _⟩ := Node.ofVar_some ht
    have hI2 : Inv (m.added tmp hk) := by
      apply inv_added hI _ _ hh
      · right
        rw [t1, t2, t3]
        refine ⟨hv, hv0, hvar, hlr, ?_, ?_, Node.ofVar_append _ ht⟩
        · have := (deref_bounds ha).2
          omega
        · have := (deref_bounds hb).2
          omega
      · intro p a ha
        by_cases hp : 3 < p
        · exact hne p a hp ha
        · have hx : a._var = SpecialVals.NoVar := by
            rcases hI.low_nodes ha (by omega) with rfl | rfl | rfl <;> rfl
          cases hab : a.eq tmp with
          | false => rfl
          | true =>
            have := (Node.eq_iff.mp hab).1
            rw [hx, t1] at this
            exact absurd this.symm hv
    refine ⟨hI2, ⟨[tmp], rfl⟩, Or.inr ⟨hlr,
      Or.inr (Or.inr (Or.inr ⟨_, List.mem_cons_self _ _, rfl⟩)), ?_, tmp,
      Node.ofVar_append _ ht, deref_append_new _ _⟩⟩
    have := hI.heap_len
    omega

theorem steps_inv {m m2 : NodeManager} (hs : Steps m m2) (hI : Inv m) :
    Inv m2 ∧ ∃ t, m2.heap = m.heap ++ t := by
  induction hs with
  | refl => exact ⟨hI, [], by simp⟩
  | node m1 var l r p m2 _ hv hc ih =>
    obtain ⟨h1, t, ht⟩ := ih
    obtain ⟨h2, ⟨t2, ht2⟩, _⟩ := mK_post h1 hv hc
    exact ⟨h2, t ++ t2, by rw [ht2, ht, List.append_assoc]⟩
  | leaf m1 v p m2 _ hv1 hv2 hc ih =>
    obtain ⟨h1, t, ht⟩ := ih
    obtain ⟨h2, ⟨t2, ht2⟩, _⟩ := mKVal_post h1 hv1 hv2 hc
    exact ⟨h2, t ++ t2, by rw [ht2, ht, List.append_assoc]⟩

theorem reachable_inv {m : NodeManager} (hm : Reachable m) : Inv m :=
  (steps_inv hm inv_new).1

/-- **C1** (hash-consing uniqueness).  In a state reached from a fresh manager by successful
`mK` calls, a call `mK(var, low, high)` returns the pointer that an earlier call with the
same arguments returned, a call `mK(val)` returns the pointer that an earlier call with the
same value returned, and no two distinct nodes owned by the manager (values of the unique
table, `bot`, `top`, `zero`) are equal under `Node::operator==`. -/
theorem C1_hash_consing_unique (m : NodeManager) (hm : Reachable m) :
    (∀ (var l r p : Nat) (m1 m2 : NodeManager) (q : Nat) (m3 : NodeManager),
        var < 18446744073709551616 →
        m.mK var l r = (some p, m1) → Steps m1 m2 → m2.mK var l r = (some q, m3) → q = p) ∧
    (∀ (v : Int) (p : Nat) (m1 m2 : NodeManager) (q : Nat) (m3 : NodeManager),
        SpecialVals.BOT ≤ v → v ≤ SpecialVals.TOP →
        m.mKVal v = (some p, m1) → Steps m1 m2 → m2.mKVal v = (some q, m3) → q = p) ∧
    (∀ (p q : Nat) (a b : Node), m.owns p → m.owns q →
        deref m.heap p = some a → deref m.heap q = some b → p ≠ q → a.eq b = false) := by
  have hI := (reachable_inv hm)
  refine ⟨?_, ?_, ?_⟩
  · intro var l r p m1 m2 q m3 hv h1 hs h2
    obtain ⟨hI1, _, hp⟩ := mK_post hI hv h1
    obtain ⟨hI2, ⟨t2, ht2⟩⟩ := steps_inv hs hI1
    obtain ⟨hI3, ⟨t3, ht3⟩, hq⟩ := mK_post hI2 hv h2
    rcases hp with ⟨hlr, hp, _⟩ | ⟨hlr, _, _, tmp, ht, hd⟩
    · rcases hq with ⟨_, hq, _⟩ | ⟨hne, _⟩
      · rw [hp, hq]
      · exact absurd hlr hne
    · rcases hq with ⟨hlr2, _⟩ | ⟨_, _, _, tmp2, ht', hd2⟩
      · exact absurd hlr2 hlr
      · have e1 : m3.heap = m1.heap ++ (t2 ++ t3) := by
          rw [ht3, ht2, List.append_assoc]
        have e2 := Node.ofVar_append (t2 ++ t3) ht
        have e3 := deref_append (t2 ++ t3) hd
        rw [← e1] at e2 e3
        rw [ht'] at e2
        cases e2
        exact hI3.unique q p _ _ hd2 e3 (Node.eq_refl _)
  · intro v p m1 m2 q m3 hv1 hv2 h1 hs h2
    obtain ⟨hI1, _, _, hp⟩ := mKVal_post hI hv1 hv2 h1
    obtain ⟨hI2, ⟨t2, ht2⟩⟩ := steps_inv hs hI1
    obtain ⟨hI3, ⟨t3, ht3⟩, _, hq⟩ := mKVal_post hI2 hv1 hv2 h2
    have e1 : m3.heap = m1.heap ++ (t2 ++ t3) := by
      rw [ht3, ht2, List.append_assoc]
    have e3 := deref_append (t2 ++ t3) hp
    rw [← e1] at e3
    exact hI3.unique q p _ _ hq e3 (Node.eq_refl _)
  · intro p q a b _ _ ha hb hpq
    cases hab : a.eq b with
    | false => rfl
    | true => exact absurd (hI.unique p q a b ha hb hab) hpq

/-- The two forms of a node of a manager that satisfies the invariant. -/
theorem Inv.node_cases {m : NodeManager} (hI : Inv m) {p : Nat} {a : Node}
    (ha : deref m.heap p = some a) :
    (∃ v : Int, a = Node.ofVal v ∧ v ≠ SpecialVals.NoVal ∧ SpecialVals.BOT ≤ v ∧
        v ≤ SpecialVals.TOP) ∨
    (a._var ≠ SpecialVals.NoVar ∧ 0 < a._var ∧ a._var < 18446744073709551616 ∧
        a.left ≠ a.right ∧ a.left < p ∧ a.right < p ∧
        Node.ofVar m.heap a._var a.left a.right = some a) := by
  by_cases hp : 3 < p
  · rcases hI.shape p a ha hp with ⟨v, h1, h2, _, _, _, h3, h4⟩ | h
    · exact Or.inl ⟨v, h1, h2, h3, h4⟩
    · exact Or.inr h
  · left
    rcases hI.low_nodes ha (by omega) with rfl | rfl | rfl
    · exact ⟨_, rfl, by decide, by decide, by decide⟩
    · exact ⟨_, rfl, by decide, by decide, by decide⟩
    · exact ⟨_, rfl, by decide, by decide, by decide⟩

theorem Inv.inner {m : NodeManager} (hI : Inv m) {p : Nat} {a : Node}
    (ha : deref m.heap p = some a) (hl : a.isLeaf = false) :
    a._var ≠ SpecialVals.NoVar ∧ 0 < a._var ∧ a._var < 18446744073709551616 ∧
      a.left ≠ a.right ∧ a.left < p ∧ a.right < p ∧
      Node.ofVar m.heap a._var a.left a.right = some a := by
  rcases hI.node_cases ha with ⟨v, rfl, _⟩ | h
  · rw [isLeaf_ofVal] at hl
    cases hl
  · exact h

theorem Inv.leaf {m : NodeManager} (hI : Inv m) {p : Nat} {a : Node}
    (ha : deref m.heap p = some a) (hl : a.isLeaf = true) :
    ∃ v : Int, a = Node.ofVal v ∧ v ≠ SpecialVals.NoVal ∧ SpecialVals.BOT ≤ v ∧
      v ≤ SpecialVals.TOP := by
  rcases hI.node_cases ha with h | ⟨h, _⟩
  · exact h
  · simp [Node.isLeaf] at hl
    exact absurd hl h

/-- The state a successful `mK(var, left, right)` leaves is the former one, or the former
one with the new node `Node(var, left, right)` added. -/
theorem mK_state {m m2 : NodeManager} {var l r p : Nat} (hI : Inv m)
    (h : m.mK var l r = (some p, m2)) :
    m2 = m ∨ (l ≠ r ∧ p = m.heap.length + 1 ∧
      ∃ tmp hk, Node.ofVar m.heap var l r = some tmp ∧ m2 = m.added tmp hk) := by
  rcases mK_cases hI var l r with hc | ⟨_, _, hlr, hc⟩ |
      ⟨hlr, hv, hv0, tmp, ht, ⟨q, n, hq, hn, he, hc⟩ | ⟨hne, hk, hh, hc⟩⟩
  all_goals rw [hc] at h
  all_goals simp only [Prod.mk.injEq, Option.some.injEq] at h
  · exact absurd h.1 (by simp)
  · exact Or.inl h.2.symm
  · exact Or.inl h.2.symm
  · exact Or.inr ⟨hlr, h.1.symm, tmp, hk, ht, h.2.symm⟩

/-- The state a successful `mK(val)` leaves is the former one, or the former one with the
new leaf `Node(val)` added. -/
theorem mKVal_state {m m2 : NodeManager} {v : Int} {p : Nat} (hI : Inv m)
    (h : m.mKVal v = (some p, m2)) :
    m2 = m ∨ (p = m.heap.length + 1 ∧ ∃ hk, m2 = m.added (Node.ofVal v) hk) := by
  rcases mKVal_cases hI v with ⟨_, hc⟩ | ⟨hv, hc⟩ | ⟨hv, hc⟩ | ⟨hv, hc⟩ |
      ⟨n1, n2, n3, n4, ⟨q, n, hq, hn, he, hc⟩ | ⟨hne, hk, hh, hc⟩⟩
  all_goals rw [hc] at h
  all_goals simp only [Prod.mk.injEq, Option.some.injEq] at h
  · exact absurd h.1 (by simp)
  · exact Or.inl h.2.symm
  · exact Or.inl h.2.symm
  · exact Or.inl h.2.symm
  · exact Or.inl h.2.symm
  · exact Or.inr ⟨h.1.symm, hk, h.2.symm⟩

/-- **C2** (reduction).  For every variable other than `NoVar` and every non-null `n`,
`mK(var, n, n)` returns `n` and leaves the manager, its unique table included, as it was;
and no inner node of a manager reached by successful `mK` calls has identical `low` and
`high` children. -/
theorem C2_mK_same_children (m : NodeManager) (var n : Nat)
    (hvar : var ≠ SpecialVals.NoVar) (hn : n ≠ 0) :
    m.mK var n n = (some n, m) ∧ (m.mK var n n).2._unique_table = m._unique_table ∧
    (Reachable m → ∀ (p : Nat) (a : Node), deref m.heap p = some a → a.isLeaf = false →
      a.low ≠ a.high) := by
  have h : m.mK var n n = (some n, m) := by
    unfold mK
    rw [if_neg (not_not.mpr ⟨hn, hn⟩), if_neg (not_not.mpr hvar), if_pos rfl]
  refine ⟨h, by rw [h], ?_⟩
  intro hm p a ha hl hc
  have := ((reachable_inv hm).inner ha hl).2.2.2.1
  simp only [Node.low, Node.high, Option.some.injEq] at hc
  exact this hc

/-- The four calls of `demoCalls` succeed and return the addresses `4`, `5`, `6`, `7`. -/
theorem demo_results : demoCalls.map Prod.fst = [some 4, some 5, some 6, some 7] := by
  decide

theorem demo_reachable : Reachable demo := by
  have s1 : Steps NodeManager.new (NodeManager.new.mKVal 1).2 :=
    Steps.leaf _ _ 1 4 _ (Steps.refl _) (by decide) (by decide) (by decide)
  have s2 := Steps.leaf _ _ 2 5 ((NodeManager.new.mKVal 1).2.mKVal 2).2 s1
    (by decide) (by decide) (by decide)
  have s3 := Steps.node _ _ 5 4 5 6 (((NodeManager.new.mKVal 1).2.mKVal 2).2.mK 5 4 5).2 s2
    (by decide) (by decide)
  exact Steps.node _ _ 7 6 4 7 demo s3 (by decide) (by decide)

theorem OrderedSteps.steps {m m2 : NodeManager} (h : OrderedSteps m m2) : Steps m m2 := by
  induction h with
  | refl => exact Steps.refl _
  | node m1 var l r p m2 _ hv _ _ hc ih => exact Steps.node _ _ var l r p m2 ih hv hc
  | leaf m1 v p m2 _ h1 h2 hc ih => exact Steps.leaf _ _ v p m2 ih h1 h2 hc

theorem ordered_added {m : NodeManager} (hI : Inv m) (ho : Ordered m.heap) (n : Node)
    (hk : Nat) (hl : n.left ≤ m.heap.length) (hr : n.right ≤ m.heap.length)
    (hn : n.isLeaf = false → respectsOrder m.heap n._var n.left ∧
      respectsOrder m.heap n._var n.right) :
    Ordered (m.added n hk).heap := by
  have key : ∀ (v c : Nat), c ≤ m.heap.length → respectsOrder m.heap v c →
      respectsOrder (m.heap ++ [n]) v c := by
    intro v c hc h x hx hxl
    rcases deref_append_cases hx with h1 | ⟨h1, _⟩
    · exact h x h1 hxl
    · omega
  intro p a ha hal
  rcases deref_append_cases ha with h1 | ⟨h1, h2⟩
  · obtain ⟨_, _, _, _, h5, h6, _⟩ := hI.inner h1 hal
    have hp := (deref_bounds h1).2
    obtain ⟨o1, o2⟩ := ho p a h1 hal
    exact ⟨key _ _ (by omega) o1, key _ _ (by omega) o2⟩
  · subst h2
    obtain ⟨o1, o2⟩ := hn hal
    exact ⟨key _ _ hl o1, key _ _ hr o2⟩

theorem OrderedSteps.ordered {m m2 : NodeManager} (h : OrderedSteps m m2) (hI : Inv m)
    (ho : Ordered m.heap) : Ordered m2.heap := by
  induction h with
  | refl => exact ho
  | node m1 var l r p m2 hs hv h1 h2 hc ih =>
    have hI1 := (steps_inv hs.steps hI).1
    rcases mK_state hI1 hc with rfl | ⟨_, _, tmp, hk, ht, rfl⟩
    · exact ih
    · obtain ⟨t1, t2, t3, _⟩ := isLeaf_ofVar ht
      obtain ⟨a, b, ha, hb, _⟩ := Node.ofVar_some ht
      apply ordered_added hI1 ih
      · rw [t2]; exact (deref_bounds ha).2
      · rw [t3]; exact (deref_bounds hb).2
      · intro _
        rw [t1, t2, t3]
        exact ⟨h1, h2⟩
  | leaf m1 v p m2 hs h1 h2 hc ih =>
    have hI1 := (steps_inv hs.steps hI).1
    rcases mKVal_state hI1 hc with rfl | ⟨_, hk, rfl⟩
    · exact ih
    · apply ordered_added hI1 ih
      · exact Nat.zero_le _
      · exact Nat.zero_le _
      · intro hl
        rw [isLeaf_ofVal] at hl
        cases hl

theorem ordered_new : Ordered NodeManager.new.heap := by
  intro p n hn hl
  have hb : p ≤ 3 := (deref_bounds hn).2
  rcases inv_new.low_nodes hn hb with rfl | rfl | rfl <;>
    (rw [isLeaf_ofVal] at hl; cases hl)

theorem path_ordered {h : Heap} (ho : Ordered h) {p : Nat} {vs : List Nat}
    (hp : Node.Path h p vs) :
    vs.Pairwise (fun a b => a < b) ∧
      ∀ x ∈ vs, ∀ n, deref h p = some n → n.isLeaf = false ∧ n._var ≤ x := by
  induction hp with
  | leaf p n _ _ => exact ⟨List.Pairwise.nil, by simp⟩
  | low p n vs hn hl hpath ih =>
    obtain ⟨ih1, ih2⟩ := ih
    have hlt : ∀ x ∈ vs, n._var < x := by
      intro x hx
      cases hpath with
      | leaf _ _ _ _ => simp at hx
      | low _ c _ hc hcl _ =>
        have h1 := (ho p n hn hl).1 c hc hcl
        have h2 := (ih2 x hx c hc).2
        omega
      | high _ c _ hc hcl _ =>
        have h1 := (ho p n hn hl).1 c hc hcl
        have h2 := (ih2 x hx c hc).2
        omega
    refine ⟨List.pairwise_cons.mpr ⟨hlt, ih1⟩, ?_⟩
    intro x hx n2 hn2
    rw [hn] at hn2
    cases hn2
    rcases List.mem_cons.mp hx with rfl | hx2
    · exact ⟨hl, le_refl _⟩
    · exact ⟨hl, le_of_lt (hlt x hx2)⟩
  | high p n vs hn hl hpath ih =>
    obtain ⟨ih1, ih2⟩ := ih
    have hlt : ∀ x ∈ vs, n._var < x := by
      intro x hx
      cases hpath with
      | leaf _ _ _ _ => simp at hx
      | low _ c _ hc hcl _ =>
        have h1 := (ho p n hn hl).2 c hc hcl
        have h2 := (ih2 x hx c hc).2
        omega
      | high _ c _ hc hcl _ =>
        have h1 := (ho p n hn hl).2 c hc hcl
        have h2 := (ih2 x hx c hc).2
        omega
    refine ⟨List.pairwise_cons.mpr ⟨hlt, ih1⟩, ?_⟩
    intro x hx n2 hn2
    rw [hn] at hn2
    cases hn2
    rcases List.mem_cons.mp hx with rfl | hx2
    · exact ⟨hl, le_refl _⟩
    · exact ⟨hl, le_of_lt (hlt x hx2)⟩

/-- **C3**, as the code has it: `mK` does not compare `var` with the variables of the
children, so the order is the obligation of the callers.  When every call
`mK(var, left, right)` of the run is made with `var` smaller than the variable of each
child that is an inner node, the variables along every root-to-leaf path of every node of
the manager are strictly increasing. -/
theorem C3_order_kept_by_ordered_calls (m : NodeManager)
    (hm : OrderedSteps NodeManager.new m) (p : Nat) (vs : List Nat)
    (hp : Node.Path m.heap p vs) : vs.Pairwise (fun a b => a < b) :=
  (path_ordered (hm.ordered inv_new ordered_new) hp).1

/-- **C3**, as stated, fails: after the successful calls `mK(1)`, `mK(2)`, `mK(5, 4, 5)` and
`mK(7, 6, 4)` on a fresh manager, the node the last call returned (address `7`, owned by
the manager) has the root-to-leaf path of variables `7, 5`, which is not increasing. -/
theorem C3_order_not_enforced :
    Reachable demo ∧ demo.mK 7 6 4 = (some 7, demo) ∧ demo.owns 7 ∧
      Node.Path demo.heap 7 [7, 5] ∧ ¬ [7, 5].Pairwise (fun a b => a < b) := by
  refine ⟨demo_reachable, by decide, ?_, ?_, by decide⟩
  · unfold owns
    decide
  · refine Node.Path.low 7 ⟨6, 4, 7, SpecialVals.NoVal, 2, 1⟩ [5] (by decide) (by decide) ?_
    refine Node.Path.low 6 ⟨4, 5, 5, SpecialVals.NoVal, 2, 1⟩ [] (by decide) (by decide) ?_
    exact Node.Path.leaf 4 (Node.ofVal 1) (by decide) (by decide)

theorem Inv.children {m : NodeManager} (hI : Inv m) {p : Nat} {n : Node}
    (hn : deref m.heap p = some n) (hl : n.isLeaf = false) :
    ∃ lo hi, deref m.heap n.left = some lo ∧ deref m.heap n.right = some hi ∧
      n.left < p ∧ n.right < p ∧
      n._max = max lo._max hi._max ∧ n._min = min lo._min hi._min := by
  obtain ⟨_, _, _, _, h5, h6, h7⟩ := hI.inner hn hl
  obtain ⟨a, b, ha, hb, hab⟩ := Node.ofVar_some h7
  refine ⟨a, b, ha, hb, h5, h6, ?_, ?_⟩
  · exact congrArg Node._max hab
  · exact congrArg Node._min hab

theorem leaf_bounds {m : NodeManager} (hI : Inv m) {p q : Nat}
    (hr : Node.Reaches m.heap p q) :
    ∀ n l, deref m.heap p = some n → deref m.heap q = some l → l.isLeaf = true →
      l._val ≤ n._max ∧ n._min ≤ l._val := by
  induction hr with
  | refl p =>
    intro n l hn hl hleaf
    rw [hn] at hl
    cases hl
    obtain ⟨v, rfl, _⟩ := hI.leaf hn hleaf
    exact ⟨le_refl _, le_refl _⟩
  | low p a q ha hal _ ih =>
    intro n l hn hl hleaf
    rw [ha] at hn
    cases hn
    obtain ⟨lo, hi, hlo, hhi, _, _, hmax, hmin⟩ := hI.children ha hal
    obtain ⟨h1, h2⟩ := ih lo l hlo hl hleaf
    rw [hmax, hmin]
    exact ⟨le_trans h1 (le_max_left _ _), le_trans (min_le_left _ _) h2⟩
  | high p a q ha hal _ ih =>
    intro n l hn hl hleaf
    rw [ha] at hn
    cases hn
    obtain ⟨lo, hi, hlo, hhi, _, _, hmax, hmin⟩ := hI.children ha hal
    obtain ⟨h1, h2⟩ := ih hi l hhi hl hleaf
    rw [hmax, hmin]
    exact ⟨le_trans h1 (le_max_right _ _), le_trans (min_le_right _ _) h2⟩

theorem max_attained {m : NodeManager} (hI : Inv m) :
    ∀ (k p : Nat) (n : Node), p ≤ k → deref m.heap p = some n →
      ∃ q l, Node.Reaches m.heap p q ∧ deref m.heap q = some l ∧ l.isLeaf = true ∧
        l._val = n._max := by
  intro k
  induction k with
  | zero =>
    intro p n hp hn
    have := (deref_bounds hn).1
    omega
  | succ k ih =>
    intro p n hp hn
    cases hl : n.isLeaf with
    | true =>
      obtain ⟨v, rfl, _⟩ := hI.leaf hn hl
      exact ⟨p, _, Node.Reaches.refl p, hn, hl, rfl⟩
    | false =>
      obtain ⟨lo, hi, hlo, hhi, h1, h2, hmax, _⟩ := hI.children hn hl
      rcases max_choice lo._max hi._max with hc | hc
      · obtain ⟨q, l, hr, hq, hql, hv⟩ := ih n.left lo (by omega) hlo
        exact ⟨q, l, Node.Reaches.low p n q hn hl hr, hq, hql, by rw [hv, hmax, hc]⟩
      · obtain ⟨q, l, hr, hq, hql, hv⟩ := ih n.right hi (by omega) hhi
        exact ⟨q, l, Node.Reaches.high p n q hn hl hr, hq, hql, by rw [hv, hmax, hc]⟩

theorem min_attained {m : NodeManager} (hI : Inv m) :
    ∀ (k p : Nat) (n : Node), p ≤ k → deref m.heap p = some n →
      ∃ q l, Node.Reaches m.heap p q ∧ deref m.heap q = some l ∧ l.isLeaf = true ∧
        l._val = n._min := by
  intro k
  induction k with
  | zero =>
    intro p n hp hn
    have := (deref_bounds hn).1
    omega
  | succ k ih =>
    intro p n hp hn
    cases hl : n.isLeaf with
    | true =>
      obtain ⟨v, rfl, _⟩ := hI.leaf hn hl
      exact ⟨p, _, Node.Reaches.refl p, hn, hl, rfl⟩
    | false =>
      obtain ⟨lo, hi, hlo, hhi, h1, h2, _, hmin⟩ := hI.children hn hl
      rcases min_choice lo._min hi._min with hc | hc
      · obtain ⟨q, l, hr, hq, hql, hv⟩ := ih n.left lo (by omega) hlo
        exact ⟨q, l, Node.Reaches.low p n q hn hl hr, hq, hql, by rw [hv, hmin, hc]⟩
      · obtain ⟨q, l, hr, hq, hql, hv⟩ := ih n.right hi (by omega) hhi
        exact ⟨q, l, Node.Reaches.high p n q hn hl hr, hq, hql, by rw [hv, hmin, hc]⟩

/-- **C4** (cached extrema).  For every node `n` of a manager reached by successful `mK`
calls: `maxLeaf()` is the value of a leaf reachable from `n` through `low`/`high` and is
at least the value of every such leaf; `minLeaf()` is the value of a reachable leaf and is
at most the value of every such leaf; and for an inner node `maxLeaf()` is the maximum,
`minLeaf()` the minimum, of those of its two children. -/
theorem C4_cached_extrema (m : NodeManager) (hm : Reachable m) (p : Nat) (n : Node)
    (hn : deref m.heap p = some n) :
    (∃ q l, Node.Reaches m.heap p q ∧ deref m.heap q = some l ∧ l.isLeaf = true ∧
        l.val = some n.maxLeaf) ∧
    (∃ q l, Node.Reaches m.heap p q ∧ deref m.heap q = some l ∧ l.isLeaf = true ∧
        l.val = some n.minLeaf) ∧
    (∀ q l, Node.Reaches m.heap p q → deref m.heap q = some l → l.isLeaf = true →
        ∃ v, l.val = some v ∧ n.minLeaf ≤ v ∧ v ≤ n.maxLeaf) ∧
    (n.isLeaf = false → ∃ lo hi, deref m.heap n.left = some lo ∧
        deref m.heap n.right = some hi ∧
        n.maxLeaf = max lo.maxLeaf hi.maxLeaf ∧ n.minLeaf = min lo.minLeaf hi.minLeaf) := by
  have hI := (reachable_inv hm)
  refine ⟨?_, ?_, ?_, ?_⟩
  · obtain ⟨q, l, h1, h2, h3, h4⟩ := max_attained hI p p n (le_refl _) hn
    exact ⟨q, l, h1, h2, h3, by simp [Node.val, h3, h4, Node.maxLeaf]⟩
  · obtain ⟨q, l, h1, h2, h3, h4⟩ := min_attained hI p p n (le_refl _) hn
    exact ⟨q, l, h1, h2, h3, by simp [Node.val, h3, h4, Node.minLeaf]⟩
  · intro q l hr hl hleaf
    obtain ⟨h1, h2⟩ := leaf_bounds hI hr n l hn hl hleaf
    exact ⟨l._val, by simp [Node.val, hleaf], h2, h1⟩
  · intro hl
    obtain ⟨lo, hi, hlo, hhi, _, _, hmax, hmin⟩ := hI.children hn hl
    exact ⟨lo, hi, hlo, hhi, hmax, hmin⟩

/-- In a manager that satisfies the invariant, `mK(val)` aborts only on `NoVal`. -/
theorem mKVal_total {m : NodeManager} (hI : Inv m) (v : Int) (hv : v ≠ SpecialVals.NoVal) :
    ∃ p m2, m.mKVal v = (some p, m2) := by
  rcases mKVal_cases hI v with ⟨h, _⟩ | ⟨_, hc⟩ | ⟨_, hc⟩ | ⟨_, hc⟩ |
      ⟨_, _, _, _, ⟨q, n, _, _, _, hc⟩ | ⟨_, hk, _, hc⟩⟩
  · exact absurd h hv
  all_goals exact ⟨_, _, hc⟩

/-- **C5** (leaf construction).  In a manager reached by successful `mK` calls, for every
`int` value `v` other than `NoVal` the call `mK(v)` succeeds and returns a node that is a
leaf of value `v`; for `v` equal to `BOT`, `TOP` or `0` it returns the member `bot`, `top`
or `zero` and leaves the manager, its unique table included, as it was. -/
theorem C5_mK_leaf (m : NodeManager) (hm : Reachable m) (v : Int)
    (h1 : SpecialVals.BOT ≤ v) (h2 : v ≤ SpecialVals.TOP) (hv : v ≠ SpecialVals.NoVal) :
    (∃ p m2 n, m.mKVal v = (some p, m2) ∧ deref m2.heap p = some n ∧
        n.isLeaf = true ∧ n.val = some v) ∧
    (v = SpecialVals.BOT → m.mKVal v = (some m.bot, m)) ∧
    (v = SpecialVals.TOP → m.mKVal v = (some m.top, m)) ∧
    (v = 0 → m.mKVal v = (some m.zero, m)) := by
  have hI := (reachable_inv hm)
  refine ⟨?_, ?_, ?_, ?_⟩
  · obtain ⟨p, m2, hc⟩ := mKVal_total hI v hv
    obtain ⟨_, _, _, hd⟩ := mKVal_post hI h1 h2 hc
    exact ⟨p, m2, _, hc, hd, isLeaf_ofVal v, val_ofVal v⟩
  · intro hb
    subst hb
    rfl
  · intro hb
    subst hb
    rfl
  · intro hb
    subst hb
    rfl

/-- **C6** (rejected arguments).  In a manager reached by successful `mK` calls, `mK(val)`
aborts if and only if `val` is `NoVal`; `mK(var, left, right)` aborts whenever `var` is
`NoVar` or `left` is null or `right` is null, also when `left == right`; and every call
that aborts leaves the manager, its unique table included, as it was. -/
theorem C6_mK_rejects (m : NodeManager) (hm : Reachable m) :
    (∀ v : Int, (m.mKVal v).1 = none ↔ v = SpecialVals.NoVal) ∧
    (∀ var l r : Nat, var = SpecialVals.NoVar ∨ l = 0 ∨ r = 0 → (m.mK var l r).1 = none) ∧
    (∀ var n : Nat, var = SpecialVals.NoVar ∨ n = 0 → (m.mK var n n).1 = none) ∧
    (∀ v : Int, (m.mKVal v).1 = none → (m.mKVal v).2 = m) ∧
    (∀ var l r : Nat, (m.mK var l r).1 = none → (m.mK var l r).2 = m) := by
  have hI := (reachable_inv hm)
  have hnode : ∀ var l r : Nat, var = SpecialVals.NoVar ∨ l = 0 ∨ r = 0 →
      (m.mK var l r).1 = none := by
    intro var l r h
    unfold mK
    by_cases h1 : l ≠ 0 ∧ r ≠ 0
    · have hvar : var = SpecialVals.NoVar := by
        rcases h with h | h | h
        · exact h
        · exact absurd h h1.1
        · exact absurd h h1.2
      rw [if_neg (not_not.mpr h1), if_pos (not_not.mpr hvar)]
    · rw [if_pos h1]
  refine ⟨?_, hnode, ?_, ?_, ?_⟩
  · intro v
    constructor
    · intro h
      by_contra hv
      obtain ⟨p, m2, hc⟩ := mKVal_total hI v hv
      rw [hc] at h
      cases h
    · intro h
      subst h
      rfl
  · intro var n h
    apply hnode
    rcases h with h | h
    · exact Or.inl h
    · exact Or.inr (Or.inl h)
  · intro v h
    rcases mKVal_cases hI v with ⟨_, hc⟩ | ⟨_, hc⟩ | ⟨_, hc⟩ | ⟨_, hc⟩ |
        ⟨_, _, _, _, ⟨q, n, _, _, _, hc⟩ | ⟨_, hk, _, hc⟩⟩
    all_goals rw [hc] at h ⊢
    all_goals first | rfl | cases h
  · intro var l r h
    rcases mK_cases hI var l r with hc | ⟨_, _, _, hc⟩ |
        ⟨_, _, _, tmp, _, ⟨q, n, _, _, _, hc⟩ | ⟨_, hk, _, hc⟩⟩
    all_goals rw [hc] at h ⊢
    all_goals first | rfl | cases h

/-- **C7**, as the code has it: `val()` aborts on every inner node and succeeds on every
leaf; `var()` aborts on every leaf and succeeds on every inner node of a manager reached by
successful `mK` calls; `low()` and `high()` carry no assertion and never abort: they return
the stored pointers, which are null on a leaf and non-null on an inner node built by
`mK`. -/
theorem C7_accessors (m : NodeManager) (hm : Reachable m) (p : Nat) (n : Node)
    (hn : deref m.heap p = some n) :
    (∀ x : Node, x.isLeaf = false → x.val = none) ∧
    (∀ x : Node, x.isLeaf = true → x.val = some x._val) ∧
    (∀ x : Node, x.isLeaf = true → x.var = none) ∧
    (n.isLeaf = false → n.var = some n._var) ∧
    (n.isLeaf = true → n.low = some 0 ∧ n.high = some 0) ∧
    (n.isLeaf = false → ∃ l r, n.low = some l ∧ n.high = some r ∧ l ≠ 0 ∧ r ≠ 0 ∧
      (deref m.heap l).isSome = true ∧ (deref m.heap r).isSome = true) := by
  have hI := (reachable_inv hm)
  refine ⟨?_, ?_, ?_, ?_, ?_, ?_⟩
  · intro x hx
    simp [Node.val, hx]
  · intro x hx
    simp [Node.val, hx]
  · intro x hx
    simp [Node.var, hx]
  · intro hl
    obtain ⟨_, h2, _⟩ := hI.inner hn hl
    simp [Node.var, hl, h2]
  · intro hl
    obtain ⟨v, rfl, _⟩ := hI.leaf hn hl
    exact ⟨rfl, rfl⟩
  · intro hl
    obtain ⟨lo, hi, hlo, hhi, _⟩ := hI.children hn hl
    refine ⟨n.left, n.right, rfl, rfl, ?_, ?_, ?_, ?_⟩
    · exact Nat.pos_iff_ne_zero.mp (deref_bounds hlo).1
    · exact Nat.pos_iff_ne_zero.mp (deref_bounds hhi).1
    · rw [hlo]; rfl
    · rw [hhi]; rfl

/-- **C7**, as stated, fails: the node at address `4` of the manager `demo` is a leaf
(the one `mK(1)` returned), and `low()` and `high()` called on it do not abort; they return
the null pointer. -/
theorem C7_low_high_on_leaf :
    Reachable demo ∧ deref demo.heap 4 = some (Node.ofVal 1) ∧
      (Node.ofVal 1).isLeaf = true ∧
      (Node.ofVal 1).low = some 0 ∧ (Node.ofVal 1).high = some 0 ∧
      (Node.ofVal 1).low ≠ none ∧ (Node.ofVal 1).high ≠ none :=
  ⟨demo_reachable, by decide, by decide, by decide, by decide, by decide, by decide⟩

/-- One step of `Node::compare` on two objects of the store. -/
theorem compare_succ (h : Heap) (f a b : Nat) (na nb : Node)
    (ha : deref h a = some na) (hb : deref h b = some nb) :
    Node.compare h (f + 1) a b =
      if a = b then some 0
      else if na.isLeaf = true ∧ nb.isLeaf = false then some (-1)
      else if na.isLeaf = false ∧ nb.isLeaf = true then some 1
      else if na.isLeaf = true ∧ nb.isLeaf = true then some (wrap32 (na._val - nb._val))
      else if na._var = 0 ∨ nb._var = 0 then none
      else if na._var > nb._var then some 1
      else if na._var < nb._var then some (-1)
      else
        (Node.compare h f na.right nb.right).bind
          (fun d => if d ≠ 0 then some d else Node.compare h f na.left nb.left) := by
  rw [Node.compare, ha, hb]
  cases hla : na.isLeaf <;> cases hlb : nb.isLeaf <;>
    simp [Node.val, Node.var, Node.high, Node.low, hla, hlb]
  by_cases h1 : a = b
  · simp [h1]
  · simp only [h1, if_false]
    by_cases h2 : na._var = 0
    · simp [h2]
    · by_cases h3 : nb._var = 0
      · simp [h3, Nat.pos_of_ne_zero h2]
      · simp only [h2, h3, Nat.pos_of_ne_zero h2, Nat.pos_of_ne_zero h3, if_true, if_false,
          or_self]
        cases Node.compare h f na.right nb.right <;> simp

/-- On the nodes of a manager that satisfies the invariant `Node::compare` returns: with
fuel at least the address of `*this` the embedded function gives a result, the same for
every such fuel. -/
theorem compare_total {m : NodeManager} (hI : Inv m) :
    ∀ (k a b : Nat) (na nb : Node), a ≤ k → deref m.heap a = some na →
      deref m.heap b = some nb →
      ∃ d : Int, ∀ f, k ≤ f → Node.compare m.heap f a b = some d := by
  intro k
  induction k with
  | zero =>
    intro a b na nb hk ha _
    have := (deref_bounds ha).1
    omega
  | succ k ih =>
    intro a b na nb hk ha hb
    have hstep : ∀ f, k + 1 ≤ f → Node.compare m.heap f a b =
        Node.compare m.heap (f - 1 + 1) a b := by
      intro f hf
      rw [Nat.sub_add_cancel (by omega)]
    by_cases h1 : a = b
    · refine ⟨0, fun f hf => ?_⟩
      rw [hstep f hf, compare_succ _ _ _ _ _ _ ha hb, if_pos h1]
    by_cases h2 : na.isLeaf = true ∧ nb.isLeaf = false
    · refine ⟨-1, fun f hf => ?_⟩
      rw [hstep f hf, compare_succ _ _ _ _ _ _ ha hb, if_neg h1, if_pos h2]
    by_cases h3 : na.isLeaf = false ∧ nb.isLeaf = true
    · refine ⟨1, fun f hf => ?_⟩
      rw [hstep f hf, compare_succ _ _ _ _ _ _ ha hb, if_neg h1, if_neg h2, if_pos h3]
    by_cases h4 : na.isLeaf = true ∧ nb.isLeaf = true
    · refine ⟨wrap32 (na._val - nb._val), fun f hf => ?_⟩
      rw [hstep f hf, compare_succ _ _ _ _ _ _ ha hb, if_neg h1, if_neg h2, if_neg h3,
        if_pos h4]
    have hla : na.isLeaf = false := by
      cases h : na.isLeaf with
      | false => rfl
      | true =>
        cases h' : nb.isLeaf with
        | false => exact absurd ⟨h, h'⟩ h2
        | true => exact absurd ⟨h, h'⟩ h4
    have hlb : nb.isLeaf = false := by
      cases h : nb.isLeaf with
      | false => rfl
      | true => exact absurd ⟨hla, h⟩ h3
    have h5 : ¬ (na._var = 0 ∨ nb._var = 0) := by
      have := (hI.inner ha hla).2.1
      have := (hI.inner hb hlb).2.1
      omega
    by_cases h6 : na._var > nb._var
    · refine ⟨1, fun f hf => ?_⟩
      rw [hstep f hf, compare_succ _ _ _ _ _ _ ha hb, if_neg h1, if_neg h2, if_neg h3,
        if_neg h4, if_neg h5, if_pos h6]
    by_cases h7 : na._var < nb._var
    · refine ⟨-1, fun f hf => ?_⟩
      rw [hstep f hf, compare_succ _ _ _ _ _ _ ha hb, if_neg h1, if_neg h2, if_neg h3,
        if_neg h4, if_neg h5, if_neg h6, if_pos h7]
    obtain ⟨alo, ahi, halo, hahi, ha1, ha2, _⟩ := hI.children ha hla
    obtain ⟨blo, bhi, hblo, hbhi, _⟩ := hI.children hb hlb
    obtain ⟨dh, hdh⟩ := ih na.right nb.right ahi bhi (by omega) hahi hbhi
    obtain ⟨dl, hdl⟩ := ih na.left nb.left alo blo (by omega) halo hblo
    refine ⟨if dh ≠ 0 then dh else dl, fun f hf => ?_⟩
    rw [hstep f hf, compare_succ _ _ _ _ _ _ ha hb, if_neg h1, if_neg h2, if_neg h3,
      if_neg h4, if_neg h5, if_neg h6, if_neg h7, hdh (f - 1) (by omega),
      hdl (f - 1) (by omega)]
    by_cases hz : dh = 0 <;> simp [hz]

theorem demoNeg_reachable : Reachable demoNeg :=
  Steps.leaf _ _ (-1) 4 _ (Steps.refl _) (by decide) (by decide) (by decide)

/-- **C8**, evaluated where it fails: in the manager `demo` the leaf `bot` has the value
`BOT = INT_MIN`, the leaf at address `4` the value `1`, and `bot.compare(leaf 1)`, computed
as `INT_MIN - 1` modulo `2^32`, is `INT_MAX`: positive, although `INT_MIN < 1`. -/
theorem C8_compare_leaves_overflow :
    Reachable demo ∧
      (deref demo.heap demo.bot).bind Node.val = some SpecialVals.BOT ∧
      (deref demo.heap 4).bind Node.val = some 1 ∧
      SpecialVals.BOT < 1 ∧
      Node.compare demo.heap demo.heap.length demo.bot 4 = some 2147483647 :=
  ⟨demo_reachable, by decide, by decide, by decide, by decide⟩

/-- **C9**, evaluated where it fails.  In the manager `demoNeg` (leaves `bot`, `top`, `zero`
and the leaf `-1` at address `4`): `bot.compare(zero)` and `zero.compare(bot)` are both
`INT_MIN`, so the signs are not opposite; and `top.compare(leaf -1)` is `INT_MIN <= 0`,
`(leaf -1).compare(zero)` is `-1 <= 0`, while `top.compare(zero)` is `INT_MAX > 0`, so the
relation is not transitive. -/
theorem C9_compare_not_an_order :
    Reachable demoNeg ∧
      Node.compare demoNeg.heap 4 demoNeg.bot demoNeg.zero = some (-2147483648) ∧
      Node.compare demoNeg.heap 4 demoNeg.zero demoNeg.bot = some (-2147483648) ∧
      Node.compare demoNeg.heap 4 demoNeg.top 4 = some (-2147483648) ∧
      Node.compare demoNeg.heap 4 4 demoNeg.zero = some (-1) ∧
      Node.compare demoNeg.heap 4 demoNeg.top demoNeg.zero = some 2147483647 :=
  ⟨demoNeg_reachable, by decide, by decide, by decide, by decide, by decide⟩

/-- **C10** (the scheme of `Node::compare`).  On the nodes `a`, `b` of a manager reached by
successful `mK` calls, `compare` returns (the fuel `f` of the embedding being at least the
size of the store) and: `a.compare(a)` is `0`; for a leaf `a` and an inner node `b`,
`a.compare(b)` is `-1` and `b.compare(a)` is `1`; for inner nodes, the result is `-1` when
`a.var() < b.var()`, `1` when `a.var() > b.var()`, and with equal variables it is
`high(a).compare(high(b))` when that is not `0` and `low(a).compare(low(b))` otherwise. -/
theorem C10_compare_scheme (m : NodeManager) (hm : Reachable m) (f : Nat)
    (hf : m.heap.length ≤ f) (a b : Nat) (na nb : Node)
    (ha : deref m.heap a = some na) (hb : deref m.heap b = some nb) :
    Node.compare m.heap f a a = some 0 ∧
    (na.isLeaf = true → nb.isLeaf = false →
      Node.compare m.heap f a b = some (-1) ∧ Node.compare m.heap f b a = some 1) ∧
    (na.isLeaf = false → nb.isLeaf = false →
      ∃ va vb, na.var = some va ∧ nb.var = some vb ∧
        (va < vb → Node.compare m.heap f a b = some (-1)) ∧
        (va > vb → Node.compare m.heap f a b = some 1) ∧
        (va = vb → ∃ ah bh al bl dh dl,
          na.high = some ah ∧ nb.high = some bh ∧ na.low = some al ∧ nb.low = some bl ∧
          Node.compare m.heap f ah bh = some dh ∧ Node.compare m.heap f al bl = some dl ∧
          Node.compare m.heap f a b = some (if dh ≠ 0 then dh else dl))) := by
  have hI := (reachable_inv hm)
  have hf1 : f = f - 1 + 1 := by
    have := hI.heap_len
    omega
  have hrefl : ∀ (x : Nat) (nx : Node), deref m.heap x = some nx →
      Node.compare m.heap f x x = some 0 := by
    intro x nx hx
    rw [hf1, compare_succ _ _ _ _ _ _ hx hx, if_pos rfl]
  refine ⟨hrefl a na ha, ?_, ?_⟩
  · intro hla hlb
    have hab : a ≠ b := by
      intro h
      subst h
      rw [ha] at hb
      cases hb
      rw [hla] at hlb
      cases hlb
    constructor
    · rw [hf1, compare_succ _ _ _ _ _ _ ha hb, if_neg hab, if_pos ⟨hla, hlb⟩]
    · rw [hf1, compare_succ _ _ _ _ _ _ hb ha, if_neg (Ne.symm hab),
        if_neg (by simp [hla, hlb]), if_pos ⟨hlb, hla⟩]
  · intro hla hlb
    have hva := (hI.inner ha hla).2.1
    have hvb := (hI.inner hb hlb).2.1
    have hstep : a ≠ b → Node.compare m.heap f a b =
        if na._var > nb._var then some 1
        else if na._var < nb._var then some (-1)
        else (Node.compare m.heap (f - 1) na.right nb.right).bind
          (fun d => if d ≠ 0 then some d else Node.compare m.heap (f - 1) na.left nb.left) := by
      intro hab
      rw [hf1, compare_succ _ _ _ _ _ _ ha hb, if_neg hab, if_neg (by simp [hla]),
        if_neg (by simp [hlb]), if_neg (by simp [hla]), if_neg (by omega)]
      rfl
    have hne : na._var ≠ nb._var → a ≠ b := by
      intro h hab
      subst hab
      rw [ha] at hb
      cases hb
      exact h rfl
    refine ⟨na._var, nb._var, by simp [Node.var, hla, hva], by simp [Node.var, hlb, hvb],
      ?_, ?_, ?_⟩
    · intro hlt
      rw [hstep (hne (by omega)), if_neg (by omega), if_pos hlt]
    · intro hgt
      rw [hstep (hne (by omega)), if_pos hgt]
    · intro heq
      obtain ⟨alo, ahi, halo, hahi, ha1, ha2, _⟩ := hI.children ha hla
      obtain ⟨blo, bhi, hblo, hbhi, _⟩ := hI.children hb hlb
      have hab := (deref_bounds ha).2
      obtain ⟨dh, hdh⟩ := compare_total hI na.right na.right nb.right ahi bhi (le_refl _)
        hahi hbhi
      obtain ⟨dl, hdl⟩ := compare_total hI na.left na.left nb.left alo blo (le_refl _)
        halo hblo
      refine ⟨na.right, nb.right, na.left, nb.left, dh, dl, rfl, rfl, rfl, rfl,
        hdh f (by omega), hdl f (by omega), ?_⟩
      by_cases hab2 : a = b
      · subst hab2
        rw [ha] at hb
        cases hb
        have e1 := hdh f (by omega)
        have e2 := hdl f (by omega)
        rw [hrefl _ _ hahi] at e1
        rw [hrefl _ _ halo] at e2
        cases e1
        cases e2
        rw [hrefl _ _ ha]
        rfl
      · rw [hstep hab2, if_neg (by omega), if_neg (by omega), hdh (f - 1) (by omega),
          hdl (f - 1) (by omega)]
        by_cases hz : dh = 0 <;> simp [hz]

theorem demoOrdered_steps : OrderedSteps NodeManager.new demoOrdered := by
  have s1 : OrderedSteps NodeManager.new (NodeManager.new.mKVal 1).2 :=
    OrderedSteps.leaf _ _ 1 4 _ (OrderedSteps.refl _) (by decide) (by decide) (by decide)
  have s2 := OrderedSteps.leaf _ _ 2 5 ((NodeManager.new.mKVal 1).2.mKVal 2).2 s1
    (by decide) (by decide) (by decide)
  have s3 := OrderedSteps.node _ _ 5 4 5 6
    (((NodeManager.new.mKVal 1).2.mKVal 2).2.mK 5 4 5).2 s2 (by decide)
    (by
      intro n hn hl
      have h4 : deref ((NodeManager.new.mKVal 1).2.mKVal 2).2.heap 4 = some (Node.ofVal 1) := by
        decide
      rw [h4] at hn
      cases hn
      cases hl)
    (by
      intro n hn hl
      have h5 : deref ((NodeManager.new.mKVal 1).2.mKVal 2).2.heap 5 = some (Node.ofVal 2) := by
        decide
      rw [h5] at hn
      cases hn
      cases hl)
    (by decide)
  refine OrderedSteps.node _ _ 3 6 4 7 demoOrdered s3 (by decide) ?_ ?_ (by decide)
  · intro n hn _
    have h6 : deref (((NodeManager.new.mKVal 1).2.mKVal 2).2.mK 5 4 5).2.heap 6 =
        some ⟨4, 5, 5, SpecialVals.NoVal, 2, 1⟩ := by decide
    rw [h6] at hn
    cases hn
    decide
  · intro n hn hl
    have h4 : deref (((NodeManager.new.mKVal 1).2.mKVal 2).2.mK 5 4 5).2.heap 4 =
        some (Node.ofVal 1) := by decide
    rw [h4] at hn
    cases hn
    cases hl

theorem demoOrdered_path : Node.Path demoOrdered.heap 7 [3, 5] := by
  refine Node.Path.low 7 ⟨6, 4, 3, SpecialVals.NoVal, 2, 1⟩ [5] (by decide) (by decide) ?_
  refine Node.Path.low 6 ⟨4, 5, 5, SpecialVals.NoVal, 2, 1⟩ [] (by decide) (by decide) ?_
  exact Node.Path.leaf 4 (Node.ofVal 1) (by decide) (by decide)

/-- The theorem of C3 at the manager `demoOrdered` and the path `3, 5` of its node `7`. -/
theorem C3_order_kept_by_ordered_calls_witness :
    OrderedSteps NodeManager.new demoOrdered ∧ Node.Path demoOrdered.heap 7 [3, 5] ∧
      [3, 5].Pairwise (fun a b => a < b) :=
  ⟨demoOrdered_steps, demoOrdered_path,
    C3_order_kept_by_ordered_calls demoOrdered demoOrdered_steps 7 [3, 5] demoOrdered_path⟩

theorem demo_node7 : deref demo.heap 7 = some ⟨6, 4, 7, SpecialVals.NoVal, 2, 1⟩ := by
  decide

theorem demo_node6 : deref demo.heap 6 = some ⟨4, 5, 5, SpecialVals.NoVal, 2, 1⟩ := by
  decide

/-- The theorem of C1 at the manager `demo`. -/
theorem C1_hash_consing_unique_witness :
    Reachable demo ∧
    (∀ (var l r p : Nat) (m1 m2 : NodeManager) (q : Nat) (m3 : NodeManager),
        var < 18446744073709551616 →
        demo.mK var l r = (some p, m1) → Steps m1 m2 → m2.mK var l r = (some q, m3) →
        q = p) ∧
    (∀ (v : Int) (p : Nat) (m1 m2 : NodeManager) (q : Nat) (m3 : NodeManager),
        SpecialVals.BOT ≤ v → v ≤ SpecialVals.TOP →
        demo.mKVal v = (some p, m1) → Steps m1 m2 → m2.mKVal v = (some q, m3) → q = p) ∧
    (∀ (p q : Nat) (a b : Node), demo.owns p → demo.owns q →
        deref demo.heap p = some a → deref demo.heap q = some b → p ≠ q →
        a.eq b = false) :=
  ⟨demo_reachable, C1_hash_consing_unique demo demo_reachable⟩

/-- The theorem of C2 at the manager `demo`, for `mK(5, 6, 6)`. -/
theorem C2_mK_same_children_witness :
    (5 : Nat) ≠ SpecialVals.NoVar ∧ (6 : Nat) ≠ 0 ∧
    demo.mK 5 6 6 = (some 6, demo) ∧
    (demo.mK 5 6 6).2._unique_table = demo._unique_table ∧
    (∀ (p : Nat) (a : Node), deref demo.heap p = some a →
      a.isLeaf = false → a.low ≠ a.high) :=
  ⟨by decide, by decide, (C2_mK_same_children demo 5 6 (by decide) (by decide)).1,
    (C2_mK_same_children demo 5 6 (by decide) (by decide)).2.1,
    (C2_mK_same_children demo 5 6 (by decide) (by decide)).2.2 demo_reachable⟩

/-- The theorem of C4 at the node of address `7` of the manager `demo`, whose leaves are
`1` and `2`. -/
theorem C4_cached_extrema_witness :
    Reachable demo ∧ deref demo.heap 7 = some ⟨6, 4, 7, SpecialVals.NoVal, 2, 1⟩ ∧
    (∃ q l, Node.Reaches demo.heap 7 q ∧ deref demo.heap q = some l ∧ l.isLeaf = true ∧
        l.val = some (2 : Int)) ∧
    (∃ q l, Node.Reaches demo.heap 7 q ∧ deref demo.heap q = some l ∧ l.isLeaf = true ∧
        l.val = some (1 : Int)) ∧
    (∀ q l, Node.Reaches demo.heap 7 q → deref demo.heap q = some l → l.isLeaf = true →
        ∃ v, l.val = some v ∧ (1 : Int) ≤ v ∧ v ≤ 2) ∧
    ((⟨6, 4, 7, SpecialVals.NoVal, 2, 1⟩ : Node).isLeaf = false →
      ∃ lo hi, deref demo.heap 6 = some lo ∧ deref demo.heap 4 = some hi ∧
        (2 : Int) = max lo.maxLeaf hi.maxLeaf ∧ (1 : Int) = min lo.minLeaf hi.minLeaf) :=
  ⟨demo_reachable, demo_node7,
    C4_cached_extrema demo demo_reachable 7 ⟨6, 4, 7, SpecialVals.NoVal, 2, 1⟩ demo_node7⟩

/-- The theorem of C5 at the manager `demo` and the value `2`. -/
theorem C5_mK_leaf_witness :
    Reachable demo ∧ SpecialVals.BOT ≤ 2 ∧ (2 : Int) ≤ SpecialVals.TOP ∧
    (2 : Int) ≠ SpecialVals.NoVal ∧
    (∃ p m2 n, demo.mKVal 2 = (some p, m2) ∧ deref m2.heap p = some n ∧
        n.isLeaf = true ∧ n.val = some 2) ∧
    ((2 : Int) = SpecialVals.BOT → demo.mKVal 2 = (some demo.bot, demo)) ∧
    ((2 : Int) = SpecialVals.TOP → demo.mKVal 2 = (some demo.top, demo)) ∧
    ((2 : Int) = 0 → demo.mKVal 2 = (some demo.zero, demo)) :=
  ⟨demo_reachable, by decide, by decide, by decide,
    C5_mK_leaf demo demo_reachable 2 (by decide) (by decide) (by decide)⟩

/-- The theorem of C6 at the manager `demo`. -/
theorem C6_mK_rejects_witness :
    Reachable demo ∧
    (∀ v : Int, (demo.mKVal v).1 = none ↔ v = SpecialVals.NoVal) ∧
    (∀ var l r : Nat, var = SpecialVals.NoVar ∨ l = 0 ∨ r = 0 →
      (demo.mK var l r).1 = none) ∧
    (∀ var n : Nat, var = SpecialVals.NoVar ∨ n = 0 → (demo.mK var n n).1 = none) ∧
    (∀ v : Int, (demo.mKVal v).1 = none → (demo.mKVal v).2 = demo) ∧
    (∀ var l r : Nat, (demo.mK var l r).1 = none → (demo.mK var l r).2 = demo) :=
  ⟨demo_reachable, C6_mK_rejects demo demo_reachable⟩

/-- The theorem of C7 at the inner node of address `7` of the manager `demo`. -/
theorem C7_accessors_witness :
    Reachable demo ∧ deref demo.heap 7 = some ⟨6, 4, 7, SpecialVals.NoVal, 2, 1⟩ ∧
    (∀ x : Node, x.isLeaf = false → x.val = none) ∧
    (∀ x : Node, x.isLeaf = true → x.val = some x._val) ∧
    (∀ x : Node, x.isLeaf = true → x.var = none) ∧
    ((⟨6, 4, 7, SpecialVals.NoVal, 2, 1⟩ : Node).isLeaf = false →
      (⟨6, 4, 7, SpecialVals.NoVal, 2, 1⟩ : Node).var = some 7) ∧
    ((⟨6, 4, 7, SpecialVals.NoVal, 2, 1⟩ : Node).isLeaf = true →
      (⟨6, 4, 7, SpecialVals.NoVal, 2, 1⟩ : Node).low = some 0 ∧
      (⟨6, 4, 7, SpecialVals.NoVal, 2, 1⟩ : Node).high = some 0) ∧
    ((⟨6, 4, 7, SpecialVals.NoVal, 2, 1⟩ : Node).isLeaf = false →
      ∃ l r, (⟨6, 4, 7, SpecialVals.NoVal, 2, 1⟩ : Node).low = some l ∧
        (⟨6, 4, 7, SpecialVals.NoVal, 2, 1⟩ : Node).high = some r ∧ l ≠ 0 ∧ r ≠ 0 ∧
        (deref demo.heap l).isSome = true ∧ (deref demo.heap r).isSome = true) :=
  ⟨demo_reachable, demo_node7,
    C7_accessors demo demo_reachable 7 ⟨6, 4, 7, SpecialVals.NoVal, 2, 1⟩ demo_node7⟩

/-- The theorem of C10 at the inner nodes of addresses `6` and `7` of the manager `demo`. -/
theorem C10_compare_scheme_witness :
    Reachable demo ∧ demo.heap.length ≤ 7 ∧
    deref demo.heap 6 = some ⟨4, 5, 5, SpecialVals.NoVal, 2, 1⟩ ∧
    deref demo.heap 7 = some ⟨6, 4, 7, SpecialVals.NoVal, 2, 1⟩ ∧
    Node.compare demo.heap 7 6 6 = some 0 ∧
    ((⟨4, 5, 5, SpecialVals.NoVal, 2, 1⟩ : Node).isLeaf = true →
      (⟨6, 4, 7, SpecialVals.NoVal, 2, 1⟩ : Node).isLeaf = false →
      Node.compare demo.heap 7 6 7 = some (-1) ∧ Node.compare demo.heap 7 7 6 = some 1) ∧
    ((⟨4, 5, 5, SpecialVals.NoVal, 2, 1⟩ : Node).isLeaf = false →
      (⟨6, 4, 7, SpecialVals.NoVal, 2, 1⟩ : Node).isLeaf = false →
      ∃ va vb, (⟨4, 5, 5, SpecialVals.NoVal, 2, 1⟩ : Node).var = some va ∧
        (⟨6, 4, 7, SpecialVals.NoVal, 2, 1⟩ : Node).var = some vb ∧
        (va < vb → Node.compare demo.heap 7 6 7 = some (-1)) ∧
        (va > vb → Node.compare demo.heap 7 6 7 = some 1) ∧
        (va = vb → ∃ ah bh al bl dh dl,
          (⟨4, 5, 5, SpecialVals.NoVal, 2, 1⟩ : Node).high = some ah ∧
          (⟨6, 4, 7, SpecialVals.NoVal, 2, 1⟩ : Node).high = some bh ∧
          (⟨4, 5, 5, SpecialVals.NoVal, 2, 1⟩ : Node).low = some al ∧
          (⟨6, 4, 7, SpecialVals.NoVal, 2, 1⟩ : Node).low = some bl ∧
          Node.compare demo.heap 7 ah bh = some dh ∧
          Node.compare demo.heap 7 al bl = some dl ∧
          Node.compare demo.heap 7 6 7 = some (if dh ≠ 0 then dh else dl))) :=
  ⟨demo_reachable, by decide, demo_node6, demo_node7,
    C10_compare_scheme demo demo_reachable 7 (by decide) 6 7 _ _ demo_node6 demo_node7⟩

end otawa.xengine.NodeManager

/-! ## The job producer -/

namespace otawa.xengine.LocalBBXddTimeProcessor.Producer

/-- A producer positioned on a basic block is left where it is by `nextBB`, which only
restarts the in-edges of that block. -/
theorem nextBB_on_basic {Edge : Type} (b : Block Edge) (bs : List (Block Edge))
    (ins : List Edge) (hb : b.isBasic = true) :
    nextBB { _block := b :: bs, _ins := ins } = { _block := b :: bs, _ins := b.inEdges } := by
  simp [nextBB, skipNonBasic, hb]

/-- Once the producer is on a basic block with in-edges, every call of `next` returns a
job and leaves the producer on that same block: `nullptr` is never returned. -/
theorem next_stays {Edge : Type} (b : Block Edge) (bs : List (Block Edge))
    (ins : List Edge) (hb : b.isBasic = true) (he : b.inEdges ≠ []) (hi : ins ≠ []) :
    ∃ e ins2, next { _block := b :: bs, _ins := ins } =
      some (some e, { _block := b :: bs, _ins := ins2 }) ∧ ins2 ≠ [] := by
  cases ins with
  | nil => exact absurd rfl hi
  | cons e rest =>
    cases rest with
    | nil =>
      refine ⟨e, b.inEdges, ?_, he⟩
      simp [next, nextBB_on_basic b bs [] hb]
    | cons e2 rest2 =>
      exact ⟨e, e2 :: rest2, by simp [next], by simp⟩

theorem take_never_null {Edge : Type} (b : Block Edge) (bs : List (Block Edge))
    (hb : b.isBasic = true) (he : b.inEdges ≠ []) (n : Nat) :
    ∀ ins : List Edge, ins ≠ [] →
      ∃ jobs, take n { _block := b :: bs, _ins := ins } = some jobs ∧
        jobs.length = n ∧ ∀ j ∈ jobs, j ≠ none := by
  induction n with
  | zero =>
    intro ins _
    exact ⟨[], rfl, rfl, by simp⟩
  | succ n ih =>
    intro ins hi
    obtain ⟨e, ins2, h1, h2⟩ := next_stays b bs ins hb he hi
    obtain ⟨jobs, h3, h4, h5⟩ := ih ins2 h2
    refine ⟨some e :: jobs, ?_, by simp [h4], ?_⟩
    · rw [take, h1]
      simp only [h3]
    · intro j hj
      rcases List.mem_cons.mp hj with rfl | hj2
      · simp
      · exact h5 j hj2

/-- **C11**, evaluated where it fails.  On the CFG collection `demoColl` (entry block, basic
block of in-edge `1`, basic block of in-edge `2`, exit block) the enumeration meant is
`1, 2` and then `nullptr`.  The producer's first call of `next` returns the job of edge `1`
and leaves the producer in the state it was in, since `nextBB` does not leave a basic
block: every call returns the job of edge `1`, edge `2` is never yielded and `nullptr` is
never returned. -/
theorem C11_producer_never_advances :
    expected demoColl = [1, 2] ∧
    (∃ p0, Producer.new demoColl = some p0 ∧ next p0 = some (some 1, p0) ∧
      take 3 p0 = some [some 1, some 1, some 1] ∧
      ∀ n, take n p0 = some (List.replicate n (some 1))) := by
  refine ⟨by decide, ⟨⟨true, [1]⟩ :: ⟨true, [2]⟩ :: ⟨false, [2]⟩ :: [], [1]⟩, by decide,
    by decide, by decide, ?_⟩
  intro n
  induction n with
  | zero => rfl
  | succ n ih =>
    rw [take]
    have h : next (⟨⟨true, [1]⟩ :: ⟨true, [2]⟩ :: ⟨false, [2]⟩ :: [], [1]⟩ : Producer Nat) =
        some (some 1, ⟨⟨true, [1]⟩ :: ⟨true, [2]⟩ :: ⟨false, [2]⟩ :: [], [1]⟩) := by decide
    rw [h]
    simp only [ih]
    rfl

end otawa.xengine.LocalBBXddTimeProcessor.Producer

/-! ## The local-edge timing processor -/

namespace otawa.xengine.LocalBBXddTimeProcessor

variable {Step X Matrix : Type}

theorem rebaseLoop_length (sub : X → X → X) (base : X) :
    ∀ (fuel i : Nat) (state : List X),
      (rebaseLoop sub base fuel i state).length = state.length := by
  intro fuel
  induction fuel with
  | zero => intro i state; rfl
  | succ fuel ih =>
    intro i state
    rw [rebaseLoop]
    split
    · rw [ih, List.length_set]
    · rfl

theorem rebaseLoop_getElem? (sub : X → X → X) (base : X) :
    ∀ (fuel i : Nat) (state : List X), i + fuel = state.length → ∀ j : Nat,
      (rebaseLoop sub base fuel i state)[j]? =
        if i ≤ j then state[j]?.map (fun x => sub x base) else state[j]? := by
  intro fuel
  induction fuel with
  | zero =>
    intro i state hi j
    rw [rebaseLoop]
    by_cases hj : i ≤ j
    · have : state.length ≤ j := by omega
      simp [hj, List.getElem?_eq_none this]
    · simp [hj]
  | succ fuel ih =>
    intro i state hi j
    have hlt : i < state.length := by omega
    have hlen : (i + 1) + fuel = (state.set i (sub state[i] base)).length := by
      rw [List.length_set]; omega
    rw [rebaseLoop, dif_pos hlt, ih (i + 1) (state.set i (sub state[i] base)) hlen j]
    rw [List.getElem?_set]
    by_cases h1 : i = j
    · subst h1
      simp [hlt]
    · by_cases h2 : i ≤ j
      · have h3 : i + 1 ≤ j := by omega
        simp [h1, h2, h3]
      · have h3 : ¬ i + 1 ≤ j := by omega
        simp [h1, h2, h3]

/-- The rebasing loop of `processEdge` subtracts the same `base` from every entry. -/
theorem rebaseLoop_eq_map (sub : X → X → X) (base : X) (state : List X) :
    rebaseLoop sub base state.length 0 state = state.map (fun x => sub x base) := by
  apply List.ext_getElem?
  intro j
  rw [rebaseLoop_getElem? sub base state.length 0 state (by omega) j]
  simp

end otawa.xengine.LocalBBXddTimeProcessor

namespace otawa.xengine.LocalBBXddTimeProcessor

variable {Step X Matrix : Type}

/-- The two ways `computeTime` ends, by the time coordinate `t` of the state the matrix
application gives. -/
theorem computeTime_cases (env : Env Step X Matrix) (r : Run Step X) :
    (∃ t, (env.VecXMat (env.compileSequence r.xsteps) r.state)[env.getTimePointerIdx]? =
        some t ∧ 0 < env.maxLeaf t ∧
      computeTime env r = Outcome.done
        { xsteps := r.xsteps,
          state := env.VecXMat (env.compileSequence r.xsteps) r.state,
          bbtimes := r.bbtimes ++ [t],
          compiled := r.compiled ++ [r.xsteps] }) ∨
    (computeTime env r = Outcome.abort
        { xsteps := r.xsteps,
          state := env.VecXMat (env.compileSequence r.xsteps) r.state,
          bbtimes := r.bbtimes,
          compiled := r.compiled ++ [r.xsteps] } ∧
      ∀ t, (env.VecXMat (env.compileSequence r.xsteps) r.state)[env.getTimePointerIdx]? =
        some t → env.maxLeaf t ≤ 0) := by
  cases ht : (env.VecXMat (env.compileSequence r.xsteps) r.state)[env.getTimePointerIdx]? with
  | none =>
    right
    refine ⟨?_, by intro t h; cases h⟩
    simp only [computeTime, ht]
  | some t =>
    by_cases hm : env.maxLeaf t > 0
    · left
      refine ⟨t, rfl, hm, ?_⟩
      simp only [computeTime, ht, hm, if_true]
    · right
      refine ⟨?_, ?_⟩
      · simp only [computeTime, ht, hm, if_false]
      · intro t2 h2
        cases h2
        omega

/-- The ways one iteration of the loop of `processEdge` ends. -/
theorem onStep_cases (env : Env Step X Matrix) (r : Run Step X) (xstep : Step) :
    (env.type xstep ≠ XStepType.Split ∧
      onStep env r xstep = Outcome.done { r with xsteps := r.xsteps ++ [xstep] }) ∨
    (env.type xstep = XStepType.Split ∧
      ∃ t, (env.VecXMat (env.compileSequence r.xsteps) r.state)[env.getTimePointerIdx]? =
          some t ∧ 0 < env.maxLeaf t ∧
        onStep env r xstep = Outcome.done
          { xsteps := [],
            state := (env.VecXMat (env.compileSequence r.xsteps) r.state).map
              (fun x => env.sub_saturated x t),
            bbtimes := r.bbtimes ++ [t],
            compiled := r.compiled ++ [r.xsteps] }) ∨
    (env.type xstep = XStepType.Split ∧
      onStep env r xstep = Outcome.abort
        { xsteps := r.xsteps,
          state := env.VecXMat (env.compileSequence r.xsteps) r.state,
          bbtimes := r.bbtimes,
          compiled := r.compiled ++ [r.xsteps] } ∧
      ∀ t, (env.VecXMat (env.compileSequence r.xsteps) r.state)[env.getTimePointerIdx]? =
        some t → env.maxLeaf t ≤ 0) := by
  by_cases hs : env.type xstep = XStepType.Split
  · right
    rcases computeTime_cases env r with ⟨t, ht, hm, hc⟩ | ⟨hc, hm⟩
    · left
      refine ⟨hs, t, ht, hm, ?_⟩
      simp only [onStep, hs, ne_eq, not_true_eq_false, if_false, hc, ht, rebaseLoop_eq_map]
    · right
      refine ⟨hs, ?_, hm⟩
      simp only [onStep, hs, ne_eq, not_true_eq_false, if_false, hc]
  · left
    exact ⟨hs, by simp only [onStep, ne_eq, hs, not_false_eq_true, if_true]⟩

theorem forSteps_append (env : Env Step X Matrix) (a b : List Step) :
    ∀ r : Run Step X, forSteps env (a ++ b) r =
      match forSteps env a r with
      | Outcome.abort r2 => Outcome.abort r2
      | Outcome.done r2 => forSteps env b r2 := by
  induction a with
  | nil => intro r; rfl
  | cons x a ih =>
    intro r
    simp only [List.cons_append, forSteps]
    cases onStep env r x with
    | abort r2 => rfl
    | done r2 => exact ih r2

theorem forSteps_snoc (env : Env Step X Matrix) (s : List Step) (x : Step)
    (r : Run Step X) :
    forSteps env (s ++ [x]) r =
      match forSteps env s r with
      | Outcome.abort r2 => Outcome.abort r2
      | Outcome.done r2 => onStep env r2 x := by
  rw [forSteps_append]
  cases forSteps env s r with
  | abort r2 => rfl
  | done r2 =>
    simp only [forSteps]
    cases onStep env r2 x <;> rfl

theorem splits_snoc (env : Env Step X Matrix) (s : List Step) (x : Step) :
    splits env (s ++ [x]) =
      splits env s + (if env.type x = XStepType.Split then 1 else 0) := by
  simp [splits, List.countP_append, List.countP_cons]

theorem afterLastSplit_snoc (env : Env Step X Matrix) (s : List Step) (x : Step) :
    afterLastSplit env (s ++ [x]) =
      if env.type x = XStepType.Split then [] else afterLastSplit env s ++ [x] := by
  by_cases h : env.type x = XStepType.Split <;>
    simp [afterLastSplit, List.takeWhile_cons, h]

end otawa.xengine.LocalBBXddTimeProcessor

namespace otawa.xengine.LocalBBXddTimeProcessor

variable {Step X Matrix : Type}

/-- What the loop of `processEdge` has done when it ends normally or on a failed
assertion, started with an empty buffer. -/
theorem forSteps_inv (env : Env Step X Matrix) (r0 : Run Step X) (h0 : r0.xsteps = []) :
    ∀ s : List Step,
      (∀ r, forSteps env s r0 = Outcome.done r →
        r.xsteps = afterLastSplit env s ∧
        ∃ extra, r.bbtimes = r0.bbtimes ++ extra ∧ extra.length = splits env s ∧
          r.compiled.length = r0.compiled.length + splits env s) ∧
      (∀ r, forSteps env s r0 = Outcome.abort r →
        ∃ extra, r.bbtimes = r0.bbtimes ++ extra ∧ extra.length < splits env s ∧
          r.compiled.length = r0.compiled.length + extra.length + 1) := by
  intro s
  induction s using List.reverseRecOn with
  | nil =>
    constructor
    · intro r h
      simp only [forSteps, Outcome.done.injEq] at h
      subst h
      exact ⟨by simp [afterLastSplit, h0], [], by simp, by simp [splits], by simp [splits]⟩
    · intro r h
      simp [forSteps] at h
  | append_singleton s x ih =>
    obtain ⟨ihd, iha⟩ := ih
    rw [forSteps_snoc, splits_snoc, afterLastSplit_snoc]
    cases hs : forSteps env s r0 with
    | abort r1 =>
      obtain ⟨extra, h1, h2, h3⟩ := iha r1 hs
      constructor
      · intro r h
        cases h
      · intro r h
        simp only [Outcome.abort.injEq] at h
        subst h
        exact ⟨extra, h1, by omega, h3⟩
    | done r1 =>
      obtain ⟨hx, extra, h1, h2, h3⟩ := ihd r1 hs
      rcases onStep_cases env r1 x with ⟨hn, hc⟩ | ⟨hy, t, ht, hm, hc⟩ | ⟨hy, hc, hm⟩
      · simp only [hc, hn, if_false]
        constructor
        · intro r h
          simp only [Outcome.done.injEq] at h
          subst h
          exact ⟨by simp [hx], extra, h1, by simpa using h2, by simpa using h3⟩
        · intro r h
          cases h
      · simp only [hc, hy, if_true]
        constructor
        · intro r h
          simp only [Outcome.done.injEq] at h
          subst h
          refine ⟨rfl, extra ++ [t], ?_, ?_, ?_⟩
          · simp [h1]
          · simp [h2]
          · simp [h3]
            omega
        · intro r h
          cases h
      · simp only [hc, hy, if_true]
        constructor
        · intro r h
          cases h
        · intro r h
          simp only [Outcome.abort.injEq] at h
          subst h
          refine ⟨extra, h1, by omega, ?_⟩
          simp [h3, h2]

/-- **C12** (number of time entries).  When `processEdge` ends without a failed assertion on
a step sequence, the bag `BBTIMES(e)` it leaves is the former bag followed by as many
diagrams as the sequence has `Split` markers, plus one when the steps after the last
`Split` (the whole sequence when it has none) are not empty; in particular nothing is
added for the end of a sequence that ends with a `Split`. -/
theorem C12_entries_per_edge (env : Env Step X Matrix) (s : List Step) (bb : List X)
    (r : Run Step X) (h : processEdge env s bb = Outcome.done r) :
    (∃ extra, r.bbtimes = bb ++ extra ∧
      extra.length = splits env s + (if (afterLastSplit env s).isEmpty then 0 else 1)) ∧
    (∀ (s2 : List Step) (x : Step), s = s2 ++ [x] → env.type x = XStepType.Split →
      ∃ extra, r.bbtimes = bb ++ extra ∧ extra.length = splits env s) := by
  have key : ∃ extra, r.bbtimes = bb ++ extra ∧
      extra.length = splits env s + (if (afterLastSplit env s).isEmpty then 0 else 1) := by
    unfold processEdge at h
    simp only at h
    cases hf : forSteps env s
        { xsteps := [], state := env.initState, bbtimes := bb, compiled := [] } with
    | abort r1 =>
      rw [hf] at h
      cases h
    | done r1 =>
      rw [hf] at h
      simp only at h
      obtain ⟨hx, extra, h1, h2, _⟩ := (forSteps_inv env _ rfl s).1 r1 hf
      by_cases he : r1.xsteps = []
      · simp only [he, List.isEmpty_nil, Bool.not_true, Bool.false_eq_true, if_false,
          Outcome.done.injEq] at h
        subst h
        rw [he] at hx
        exact ⟨extra, h1, by simp [← hx, h2]⟩
      · have he2 : (!r1.xsteps.isEmpty) = true := by
          cases hxs : r1.xsteps with
          | nil => exact absurd hxs he
          | cons a l => rfl
        rw [he2, if_pos rfl] at h
        rcases computeTime_cases env r1 with ⟨t, _, _, hc⟩ | ⟨hc, _⟩
        · rw [hc] at h
          simp only [Outcome.done.injEq] at h
          subst h
          refine ⟨extra ++ [t], by simp [h1], ?_⟩
          have : (afterLastSplit env s).isEmpty = false := by
            rw [← hx]
            simpa using he2
          simp [h2, this]
        · rw [hc] at h
          cases h
  refine ⟨key, ?_⟩
  intro s2 x hs hx
  obtain ⟨extra, h1, h2⟩ := key
  refine ⟨extra, h1, ?_⟩
  rw [h2]
  subst hs
  rw [afterLastSplit_snoc, if_pos hx]
  simp

/-- **C13** (empty edge).  On the empty step sequence `processEdge` ends normally; it hands
nothing to the compiler (no call of `computeTime`) and leaves `BBTIMES(e)` as it was. -/
theorem C13_empty_edge (env : Env Step X Matrix) (bb : List X) :
    processEdge env [] bb = Outcome.done
      { xsteps := [], state := env.initState, bbtimes := bb, compiled := [] } ∧
    (∀ r, processEdge env [] bb = Outcome.done r → r.bbtimes = bb ∧ r.compiled = []) ∧
    (∀ r, processEdge env [] bb ≠ Outcome.abort r) ∧
    (∀ r, processEdge env [] [] = Outcome.done r → r.bbtimes = []) := by
  have h : processEdge env [] bb = Outcome.done
      { xsteps := [], state := env.initState, bbtimes := bb, compiled := [] } := rfl
  refine ⟨h, ?_, ?_, ?_⟩
  · intro r hr
    rw [h] at hr
    simp only [Outcome.done.injEq] at hr
    subst hr
    exact ⟨rfl, rfl⟩
  · intro r hr
    rw [h] at hr
    cases hr
  · intro r hr
    have h2 : processEdge env [] ([] : List X) = Outcome.done
        { xsteps := [], state := env.initState, bbtimes := [], compiled := [] } := rfl
    rw [h2] at hr
    simp only [Outcome.done.injEq] at hr
    subst hr
    rfl

/-- **C14** (split rebasing).  When the loop of `processEdge` meets a `Split` and the segment
is computed (`computeTime` ends normally, leaving the state `r1.state`, the result of the
matrix application), the iteration ends with every entry `S[i]` of that state replaced by
`sub_saturated(S[i], base)`, where `base` is the entry `S[timeIdx]` of that state, the same
for every index, and with the buffer of pending steps empty. -/
theorem C14_split_rebasing (env : Env Step X Matrix) (r : Run Step X) (xstep : Step)
    (hs : env.type xstep = XStepType.Split) (r1 : Run Step X)
    (h1 : computeTime env r = Outcome.done r1) :
    r1.state = env.VecXMat (env.compileSequence r.xsteps) r.state ∧
    ∃ base r2, r1.state[env.getTimePointerIdx]? = some base ∧
      onStep env r xstep = Outcome.done r2 ∧
      r2.state.length = r1.state.length ∧
      (∀ i : Nat, r2.state[i]? = r1.state[i]?.map (fun x => env.sub_saturated x base)) ∧
      r2.state = r1.state.map (fun x => env.sub_saturated x base) ∧
      r2.xsteps = [] ∧ r2.bbtimes = r1.bbtimes := by
  rcases computeTime_cases env r with ⟨t, ht, hm, hc⟩ | ⟨hc, _⟩
  · rw [hc] at h1
    simp only [Outcome.done.injEq] at h1
    subst h1
    refine ⟨rfl, t,
      { xsteps := [],
        state := (env.VecXMat (env.compileSequence r.xsteps) r.state).map
          (fun x => env.sub_saturated x t),
        bbtimes := r.bbtimes ++ [t],
        compiled := r.compiled ++ [r.xsteps] }, ht, ?_, ?_, ?_, rfl, rfl, rfl⟩
    · rcases onStep_cases env r xstep with ⟨hn, _⟩ | ⟨_, t2, ht2, _, hc2⟩ | ⟨_, hc2, hm2⟩
      · exact absurd hs hn
      · rw [ht] at ht2
        cases ht2
        exact hc2
      · have := hm2 t ht
        omega
    · simp
    · intro i
      simp
  · rw [hc] at h1
    cases h1

end otawa.xengine.LocalBBXddTimeProcessor

namespace otawa.xengine.LocalBBXddTimeProcessor

variable {Step X Matrix : Type}

/-- **C15** (segment step).  Let `t` be the time coordinate of the state the application of
the matrix compiled from `xsteps` gives.  `computeTime` leaves that state in `state`; it
fails if and only if `maxLeaf(t) <= 0`, and then `BBTIMES(e)` is as it was; otherwise it
ends normally with exactly `t` added to `BBTIMES(e)`. -/
theorem C15_computeTime (env : Env Step X Matrix) (r : Run Step X) (t : X)
    (ht : (env.VecXMat (env.compileSequence r.xsteps) r.state)[env.getTimePointerIdx]? =
      some t) :
    ((∃ r2, computeTime env r = Outcome.abort r2) ↔ env.maxLeaf t ≤ 0) ∧
    (∀ r2, computeTime env r = Outcome.abort r2 →
      r2.state = env.VecXMat (env.compileSequence r.xsteps) r.state ∧
      r2.bbtimes = r.bbtimes) ∧
    (∀ r2, computeTime env r = Outcome.done r2 →
      r2.state = env.VecXMat (env.compileSequence r.xsteps) r.state ∧
      r2.bbtimes = r.bbtimes ++ [t]) ∧
    (0 < env.maxLeaf t → ∃ r2, computeTime env r = Outcome.done r2) := by
  rcases computeTime_cases env r with ⟨t2, ht2, hm, hc⟩ | ⟨hc, hm⟩
  · rw [ht] at ht2
    cases ht2
    rw [hc]
    refine ⟨?_, ?_, ?_, ?_⟩
    · constructor
      · rintro ⟨r2, h⟩
        cases h
      · intro h
        omega
    · intro r2 h
      cases h
    · intro r2 h
      simp only [Outcome.done.injEq] at h
      subst h
      exact ⟨rfl, rfl⟩
    · intro _
      exact ⟨_, rfl⟩
  · rw [hc]
    have hle := hm t ht
    refine ⟨?_, ?_, ?_, ?_⟩
    · exact ⟨fun _ => hle, fun _ => ⟨_, rfl⟩⟩
    · intro r2 h
      simp only [Outcome.abort.injEq] at h
      subst h
      exact ⟨rfl, rfl⟩
    · intro r2 h
      cases h
    · intro h
      omega

/-- **C16**, as the code has it: `processEdge` undoes nothing.  When it fails on a segment,
`BBTIMES(e)` is the former bag followed by one diagram for each segment computed before the
failing one (at most one per `Split` of the sequence); it is the former bag when the
failing segment is the first one computed. -/
theorem C16_no_rollback (env : Env Step X Matrix) (s : List Step) (bb : List X)
    (r : Run Step X) (h : processEdge env s bb = Outcome.abort r) :
    (∃ extra, r.bbtimes = bb ++ extra ∧ r.compiled.length = extra.length + 1 ∧
      extra.length ≤ splits env s) ∧
    (r.compiled.length = 1 → r.bbtimes = bb) := by
  have key : ∃ extra, r.bbtimes = bb ++ extra ∧ r.compiled.length = extra.length + 1 ∧
      extra.length ≤ splits env s := by
    unfold processEdge at h
    simp only at h
    cases hf : forSteps env s
        { xsteps := [], state := env.initState, bbtimes := bb, compiled := [] } with
    | abort r1 =>
      rw [hf] at h
      simp only [Outcome.abort.injEq] at h
      subst h
      obtain ⟨extra, h1, h2, h3⟩ := (forSteps_inv env _ rfl s).2 r1 hf
      exact ⟨extra, h1, by simpa using h3, by omega⟩
    | done r1 =>
      rw [hf] at h
      simp only at h
      obtain ⟨_, extra, h1, h2, h3⟩ := (forSteps_inv env _ rfl s).1 r1 hf
      by_cases he : (!r1.xsteps.isEmpty) = true
      · rw [if_pos he] at h
        rcases computeTime_cases env r1 with ⟨t, _, _, hc⟩ | ⟨hc, _⟩
        · rw [hc] at h
          cases h
        · rw [hc] at h
          simp only [Outcome.abort.injEq] at h
          subst h
          refine ⟨extra, h1, ?_, by omega⟩
          simp at h3
          simp [h3, h2]
      · rw [if_neg he] at h
        cases h
  refine ⟨key, ?_⟩
  intro h1
  obtain ⟨extra, h2, h3, _⟩ := key
  have : extra = [] := List.eq_nil_of_length_eq_zero (by omega)
  rw [h2, this, List.append_nil]

/-- **C16**, as stated, fails: with the collaborators `demoEnv`, on the sequence `Use` of
time `4`, `Split`, `Branch` of time `0` and a fresh edge, the first segment is computed and
its time `4` is added to `BBTIMES(e)`, then the assertion fails on the second segment
(time `0`), and `BBTIMES(e)` keeps the diagram `4`. -/
theorem C16_entries_kept_on_failure :
    processEdge demoEnv demoStepsFail [] = Outcome.abort
      { xsteps := [⟨XStepType.Branch, 0⟩], state := [0, 0], bbtimes := [4],
        compiled := [[⟨XStepType.Use, 4⟩], [⟨XStepType.Branch, 0⟩]] } ∧
    ([4] : List Int) ≠ [] := by
  constructor
  · decide
  · decide

/-- The example of the spec, `Use` of time `4`, `Split`, `Use` of time `6`: the bag holds
the diagrams `4` and `6`. -/
theorem demoSteps_run :
    processEdge demoEnv demoSteps [] = Outcome.done
      { xsteps := [⟨XStepType.Use, 6⟩], state := [6, 6], bbtimes := [4, 6],
        compiled := [[⟨XStepType.Use, 4⟩], [⟨XStepType.Use, 6⟩]] } := by
  decide

end otawa.xengine.LocalBBXddTimeProcessor

namespace otawa.xengine.LocalBBXddTimeProcessor

/-- The theorem of C12 for the collaborators `demoEnv` and the sequence `Use 4, Split,
Use 6`: two diagrams are added. -/
theorem C12_entries_per_edge_witness :
    processEdge demoEnv demoSteps [] = Outcome.done
      { xsteps := [⟨XStepType.Use, 6⟩], state := [6, 6], bbtimes := [4, 6],
        compiled := [[⟨XStepType.Use, 4⟩], [⟨XStepType.Use, 6⟩]] } ∧
    (∃ extra, ([4, 6] : List Int) = [] ++ extra ∧
      extra.length = splits demoEnv demoSteps +
        (if (afterLastSplit demoEnv demoSteps).isEmpty then 0 else 1)) ∧
    (∀ (s2 : List DemoStep) (x : DemoStep), demoSteps = s2 ++ [x] →
      demoEnv.type x = XStepType.Split →
      ∃ extra, ([4, 6] : List Int) = [] ++ extra ∧ extra.length = splits demoEnv demoSteps) :=
  ⟨demoSteps_run, C12_entries_per_edge demoEnv demoSteps [] _ demoSteps_run⟩

theorem demoRun_computeTime :
    computeTime demoEnv demoRun = Outcome.done
      { xsteps := [⟨XStepType.Use, 4⟩], state := [4, 4], bbtimes := [4],
        compiled := [[⟨XStepType.Use, 4⟩]] } := by
  decide

/-- The theorem of C14 for the collaborators `demoEnv`, at the `Split` that follows `Use` of
time `4`: the state `4, 4` is rebased to `0, 0`. -/
theorem C14_split_rebasing_witness :
    demoEnv.type ⟨XStepType.Split, 0⟩ = XStepType.Split ∧
    computeTime demoEnv demoRun = Outcome.done
      { xsteps := [⟨XStepType.Use, 4⟩], state := [4, 4], bbtimes := [4],
        compiled := [[⟨XStepType.Use, 4⟩]] } ∧
    ([4, 4] : List Int) =
      demoEnv.VecXMat (demoEnv.compileSequence demoRun.xsteps) demoRun.state ∧
    ∃ base r2, ([4, 4] : List Int)[demoEnv.getTimePointerIdx]? = some base ∧
      onStep demoEnv demoRun ⟨XStepType.Split, 0⟩ = Outcome.done r2 ∧
      r2.state.length = ([4, 4] : List Int).length ∧
      (∀ i : Nat, r2.state[i]? =
        ([4, 4] : List Int)[i]?.map (fun x => demoEnv.sub_saturated x base)) ∧
      r2.state = ([4, 4] : List Int).map (fun x => demoEnv.sub_saturated x base) ∧
      r2.xsteps = [] ∧ r2.bbtimes = [4] :=
  ⟨rfl, demoRun_computeTime,
    C14_split_rebasing demoEnv demoRun ⟨XStepType.Split, 0⟩ rfl _ demoRun_computeTime⟩

/-- The theorem of C15 for the collaborators `demoEnv` and the segment `Use` of time `4`
from the initial state: the time is `4`. -/
theorem C15_computeTime_witness :
    (demoEnv.VecXMat (demoEnv.compileSequence demoRun.xsteps)
      demoRun.state)[demoEnv.getTimePointerIdx]? = some 4 ∧
    ((∃ r2, computeTime demoEnv demoRun = Outcome.abort r2) ↔ demoEnv.maxLeaf 4 ≤ 0) ∧
    (∀ r2, computeTime demoEnv demoRun = Outcome.abort r2 →
      r2.state = demoEnv.VecXMat (demoEnv.compileSequence demoRun.xsteps) demoRun.state ∧
      r2.bbtimes = demoRun.bbtimes) ∧
    (∀ r2, computeTime demoEnv demoRun = Outcome.done r2 →
      r2.state = demoEnv.VecXMat (demoEnv.compileSequence demoRun.xsteps) demoRun.state ∧
      r2.bbtimes = demoRun.bbtimes ++ [4]) ∧
    (0 < demoEnv.maxLeaf 4 → ∃ r2, computeTime demoEnv demoRun = Outcome.done r2) :=
  ⟨by decide, C15_computeTime demoEnv demoRun 4 (by decide)⟩

theorem demoStepsFail_run :
    processEdge demoEnv demoStepsFail [] = Outcome.abort
      { xsteps := [⟨XStepType.Branch, 0⟩], state := [0, 0], bbtimes := [4],
        compiled := [[⟨XStepType.Use, 4⟩], [⟨XStepType.Branch, 0⟩]] } := by
  decide

/-- The theorem of C16 for the collaborators `demoEnv` and the sequence `Use 4, Split,
Branch 0`, which fails on its second segment. -/
theorem C16_no_rollback_witness :
    processEdge demoEnv demoStepsFail [] = Outcome.abort
      { xsteps := [⟨XStepType.Branch, 0⟩], state := [0, 0], bbtimes := [4],
        compiled := [[⟨XStepType.Use, 4⟩], [⟨XStepType.Branch, 0⟩]] } ∧
    (∃ extra, ([4] : List Int) = [] ++ extra ∧
      ([[⟨XStepType.Use, 4⟩], [⟨XStepType.Branch, 0⟩]] : List (List DemoStep)).length =
        extra.length + 1 ∧
      extra.length ≤ splits demoEnv demoStepsFail) ∧
    (([[⟨XStepType.Use, 4⟩], [⟨XStepType.Branch, 0⟩]] : List (List DemoStep)).length = 1 →
      ([4] : List Int) = []) :=
  ⟨demoStepsFail_run, C16_no_rollback demoEnv demoStepsFail [] _ demoStepsFail_run⟩

end otawa.xengine.LocalBBXddTimeProcessor

namespace otawa.xengine.NodeManager
open otawa.xengine elm

/-- The hash of an inner prototype of positive variable is computed. -/
theorem hash_inner (tmp : Node) (h1 : tmp._var ≠ SpecialVals.NoVar) (h2 : 0 < tmp._var) :
    ∃ hk, HashKey.hash tmp = some hk := by
  have hleaf : tmp.isLeaf = false := by simpa [Node.isLeaf] using h1
  have hvar : tmp.var = some tmp._var := by simp [Node.var, hleaf, h2]
  unfold HashKey.hash
  rw [hleaf]
  simp only [Node.low, Node.high, hvar]
  exact ⟨_, rfl⟩

/-- A call `mK(var, left, right)` whose node is already in the manager returns that node
and leaves the manager as it is. -/
theorem mK_hit {m : NodeManager} (hI : Inv m) {var l r q : Nat} {tmp : Node}
    (hv : var ≠ SpecialVals.NoVar) (hv0 : 0 < var) (hlr : l ≠ r)
    (ht : Node.ofVar m.heap var l r = some tmp)
    (hq : deref m.heap q = some tmp) :
    m.mK var l r = (some q, m) := by
  obtain ⟨t1, t2, t3, _⟩ := isLeaf_ofVar ht
  obtain ⟨hk, hh⟩ := hash_inner tmp (by rw [t1]; exact hv) (by rw [t1]; exact hv0)
  have hq3 : 3 < q := by
    by_contra hc
    rcases hI.low_nodes hq (by omega) with h | h | h <;>
      (rw [h] at t1; exact hv t1.symm)
  rcases mK_cases hI var l r with hc | ⟨_, _, h, _⟩ |
      ⟨_, _, _, tmp2, ht2, ⟨q2, n, hq2, hn, he, hc⟩ | ⟨hne, _, _, _⟩⟩
  · -- the call does not fail: its search finds `q`
    exfalso
    obtain ⟨a, b, ha, hb, _⟩ := Node.ofVar_some ht
    have hl0 : l ≠ 0 := Nat.pos_iff_ne_zero.mp (deref_bounds ha).1
    have hr0 : r ≠ 0 := Nat.pos_iff_ne_zero.mp (deref_bounds hb).1
    have hu : m.mK var l r =
        match m._unique_table.get m.heap tmp 0 with
        | none => (none, m)
        | some find =>
          if find ≠ 0 then (some find, m)
          else
            match m._unique_table.put (m.heap ++ [tmp]) (m.heap.length + 1)
                (m.heap.length + 1) with
            | none => (none, { m with heap := m.heap ++ [tmp] })
            | some t => (some (m.heap.length + 1),
                { m with heap := m.heap ++ [tmp], _unique_table := t }) := by
      unfold mK
      rw [if_neg (not_not.mpr ⟨hl0, hr0⟩), if_neg (not_not.mpr hv), if_neg hlr]
      simp only [ht]
      rfl
    rw [hu] at hc
    rcases get_cases hI tmp hk hh with ⟨_, _, hn⟩ | ⟨q2, n, hg, hq2, _, _⟩
    · have := hn q tmp hq3 hq
      rw [Node.eq_refl] at this
      cases this
    · have hq0 : q2 ≠ 0 := by omega
      rw [hg] at hc
      simp [hq0] at hc
  · exact absurd h hlr
  · rw [ht] at ht2
    cases ht2
    rw [hc, hI.unique q2 q n tmp hn hq he]
  · rw [ht] at ht2
    cases ht2
    have := hne q tmp hq3 hq
    rw [Node.eq_refl] at this
    cases this

end otawa.xengine.NodeManager

namespace otawa.xengine.NodeManager
open otawa.xengine elm

/-- A call `mK(val)` whose leaf is already in the manager returns that leaf and leaves the
manager as it is. -/
theorem mKVal_hit {m : NodeManager} (hI : Inv m) {v : Int} {q : Nat}
    (hv : v ≠ SpecialVals.NoVal) (hq : deref m.heap q = some (Node.ofVal v)) :
    m.mKVal v = (some q, m) := by
  rcases mKVal_cases hI v with ⟨h, _⟩ | ⟨h, hc⟩ | ⟨h, hc⟩ | ⟨h, hc⟩ |
      ⟨_, n2, n3, n4, ⟨q2, n, _, hn, he, hc⟩ | ⟨hne, _, _, _⟩⟩
  · exact absurd h hv
  · rw [hc, hI.top_eq]
    have := hI.unique 2 q _ _ hI.top_node hq (by rw [h]; exact Node.eq_refl _)
    rw [this]
  · rw [hc, hI.bot_eq]
    have := hI.unique 1 q _ _ hI.bot_node hq (by rw [h]; exact Node.eq_refl _)
    rw [this]
  · rw [hc, hI.zero_eq]
    have := hI.unique 3 q _ _ hI.zero_node hq (by rw [h]; exact Node.eq_refl _)
    rw [this]
  · rw [hc, hI.unique q2 q n _ hn hq he]
  · exfalso
    by_cases h3 : 3 < q
    · have := hne q _ h3 hq
      rw [Node.eq_refl] at this
      cases this
    · rcases hI.low_nodes hq (by omega) with h | h | h
      · have := congrArg Node._val h
        exact n3 this
      · have := congrArg Node._val h
        exact n2 this
      · have := congrArg Node._val h
        exact n4 this

theorem Inv.owns_valid {m : NodeManager} (hI : Inv m) {q : Nat} {n : Node}
    (hq : deref m.heap q = some n) : m.owns q := by
  by_cases h3 : 3 < q
  · obtain ⟨e, he1, he2⟩ := hI.owned q h3 (deref_bounds hq).2
    exact Or.inr (Or.inr (Or.inr ⟨e, he1, by rw [(hI.entry e he1).1, he2]⟩))
  · have h0 := (deref_bounds hq).1
    have hc : q = 1 ∨ q = 2 ∨ q = 3 := by omega
    rcases hc with rfl | rfl | rfl
    · exact Or.inl hI.bot_eq.symm
    · exact Or.inr (Or.inl hI.top_eq.symm)
    · exact Or.inr (Or.inr (Or.inl hI.zero_eq.symm))

theorem added_frame (m : NodeManager) (n : Node) (hk : Nat) :
    (m.added n hk).countNodes = m.countNodes + 1 ∧
    (∀ q x, deref m.heap q = some x → deref (m.added n hk).heap q = some x) ∧
    (∀ e ∈ m._unique_table.entries, e ∈ (m.added n hk)._unique_table.entries) := by
  refine ⟨?_, ?_, ?_⟩
  · simp [added, countNodes, HashMap.count]
  · intro q x hq
    exact deref_append _ hq
  · intro e he
    exact List.mem_cons_of_mem _ he

/-- **C18** (idempotence of `mK`).  In a manager reached by successful `mK` calls, for a
successful call of either form: when the requested node is already in the manager (or, for
the inner form, `left == right`), the call returns that node and leaves the manager,
`countNodes()` and the unique table included, as it was; when it is not, the call increases
`countNodes()` by exactly one, and every node and every cell of the unique table stored
before is still there, unchanged; and the same call made again at once returns the same
pointer and changes nothing. -/
theorem C18_mK_idempotent (m : NodeManager) (hm : Reachable m) :
    (∀ (var l r p : Nat) (m1 : NodeManager), var < 18446744073709551616 →
      m.mK var l r = (some p, m1) →
      (l = r → p = l ∧ m1 = m) ∧
      (l ≠ r → ∀ tmp q n, Node.ofVar m.heap var l r = some tmp → m.owns q →
        deref m.heap q = some n → n.eq tmp = true →
        p = q ∧ m1 = m ∧ m1.countNodes = m.countNodes ∧
          m1._unique_table = m._unique_table) ∧
      (l ≠ r → (∀ tmp q n, Node.ofVar m.heap var l r = some tmp → m.owns q →
          deref m.heap q = some n → n.eq tmp = false) →
        m1.countNodes = m.countNodes + 1 ∧
        (∀ q x, deref m.heap q = some x → deref m1.heap q = some x) ∧
        (∀ e ∈ m._unique_table.entries, e ∈ m1._unique_table.entries)) ∧
      m1.mK var l r = (some p, m1)) ∧
    (∀ (v : Int) (p : Nat) (m1 : NodeManager), SpecialVals.BOT ≤ v → v ≤ SpecialVals.TOP →
      m.mKVal v = (some p, m1) →
      (∀ q n, m.owns q → deref m.heap q = some n → n.eq (Node.ofVal v) = true →
        p = q ∧ m1 = m ∧ m1.countNodes = m.countNodes ∧
          m1._unique_table = m._unique_table) ∧
      ((∀ q n, m.owns q → deref m.heap q = some n → n.eq (Node.ofVal v) = false) →
        m1.countNodes = m.countNodes + 1 ∧
        (∀ q x, deref m.heap q = some x → deref m1.heap q = some x) ∧
        (∀ e ∈ m._unique_table.entries, e ∈ m1._unique_table.entries)) ∧
      m1.mKVal v = (some p, m1)) := by
  have hI := reachable_inv hm
  constructor
  · intro var l r p m1 hvar hc
    obtain ⟨hI1, _, hpost⟩ := mK_post hI hvar hc
    have hsecond : m1.mK var l r = (some p, m1) := by
      rcases hpost with ⟨hlr, hp, hm1⟩ | ⟨hlr, _, _, tmp, ht, hd⟩
      · rw [hm1, hp]
        rw [hm1, hp] at hc
        exact hc
      · rcases mK_cases hI var l r with hf | ⟨_, _, h, _⟩ | ⟨_, hv, hv0, _⟩
        · rw [hf] at hc
          cases hc
        · exact absurd h hlr
        · exact mK_hit hI1 hv hv0 hlr ht hd
    rcases mK_cases hI var l r with hf | ⟨_, _, hlr, hr⟩ |
        ⟨hlr, hv, hv0, tmp, ht, ⟨q2, n2, hq2, hn2, he2, hr⟩ | ⟨hne, hk, hh, hr⟩⟩
    · rw [hf] at hc
      cases hc
    · rw [hr] at hc
      simp only [Prod.mk.injEq, Option.some.injEq] at hc
      obtain ⟨rfl, rfl⟩ := hc
      exact ⟨fun _ => ⟨rfl, rfl⟩, fun h => absurd hlr h, fun h => absurd hlr h, hsecond⟩
    · rw [hr] at hc
      simp only [Prod.mk.injEq, Option.some.injEq] at hc
      obtain ⟨rfl, rfl⟩ := hc
      refine ⟨fun h => absurd h hlr, ?_, ?_, hsecond⟩
      · intro _ tmp2 q n ht2 _ hn he
        rw [ht] at ht2
        cases ht2
        exact ⟨hI.unique _ _ _ _ hn2 hn (Node.eq_trans he2 (Node.eq_symm he)), rfl, rfl, rfl⟩
      · intro _ hnone
        have := hnone tmp _ n2 ht (hI.owns_valid hn2) hn2
        rw [he2] at this
        cases this
    · rw [hr] at hc
      simp only [Prod.mk.injEq, Option.some.injEq] at hc
      obtain ⟨rfl, rfl⟩ := hc
      refine ⟨fun h => absurd h hlr, ?_, fun _ _ => added_frame m tmp hk, hsecond⟩
      intro _ tmp2 q n ht2 _ hn he
      rw [ht] at ht2
      cases ht2
      exfalso
      by_cases h3 : 3 < q
      · have := hne q n h3 hn
        rw [he] at this
        cases this
      · have hx : n._var = SpecialVals.NoVar := by
          rcases hI.low_nodes hn (by omega) with rfl | rfl | rfl <;> rfl
        have := (Node.eq_iff.mp he).1
        rw [hx, (isLeaf_ofVar ht).1] at this
        exact hv this.symm
  · intro v p m1 hv1 hv2 hc
    obtain ⟨hI1, _, _, hd⟩ := mKVal_post hI hv1 hv2 hc
    have hvn : v ≠ SpecialVals.NoVal := by
      intro h
      rcases mKVal_cases hI v with ⟨_, hf⟩ | ⟨h2, _⟩ | ⟨h2, _⟩ | ⟨h2, _⟩ | ⟨h2, _⟩
      · rw [hf] at hc
        cases hc
      · rw [h] at h2; exact absurd h2 (by decide)
      · rw [h] at h2; exact absurd h2 (by decide)
      · rw [h] at h2; exact absurd h2 (by decide)
      · exact h2 h
    have hsecond : m1.mKVal v = (some p, m1) := mKVal_hit hI1 hvn hd
    refine ⟨?_, ?_, hsecond⟩
    · intro q n _ hn he
      have hnv : n = Node.ofVal v := by
        rcases hI.node_cases hn with ⟨w, rfl, _⟩ | ⟨h, _⟩
        · have := (Node.eq_iff.mp he).2.1
          simp only [Node.ofVal] at this
          rw [this]
        · exact absurd (Node.eq_iff.mp he).1 h
      rw [hnv] at hn
      have := mKVal_hit hI hvn hn
      rw [this] at hc
      simp only [Prod.mk.injEq, Option.some.injEq] at hc
      obtain ⟨rfl, rfl⟩ := hc
      exact ⟨rfl, rfl, rfl, rfl⟩
    · intro hnone
      rcases mKVal_state hI hc with rfl | ⟨_, hk, rfl⟩
      · have := hnone p _ (hI.owns_valid hd) hd
        rw [Node.eq_refl] at this
        cases this
      · exact added_frame m _ hk

end otawa.xengine.NodeManager

/-! ## The container comparator and the hash -/

namespace elm.Comparator

open otawa.xengine otawa.xengine.NodeManager

/-- **C19**, as the code has it: the container comparator places the leaves after the inner
nodes, the other way round from `Node::compare`.  For every leaf `l` and every inner node
`n`, `Comparator::compare(l, n)` is `1` and `Comparator::compare(n, l)` is `-1`, while
`l.compare(n)` is `-1` and `n.compare(l)` is `1`. -/
theorem C19_comparator_leaf_inner (h : Heap) (fuel pl pn : Nat) (l n : Node)
    (hl : deref h pl = some l) (hn : deref h pn = some n)
    (hleaf : l.isLeaf = true) (hinner : n.isLeaf = false) :
    compare h (fuel + 1) pl pn = some 1 ∧ compare h (fuel + 1) pn pl = some (-1) ∧
    Node.compare h (fuel + 1) pl pn = some (-1) ∧
    Node.compare h (fuel + 1) pn pl = some 1 := by
  have hne : pl ≠ pn := by
    intro e
    subst e
    rw [hl] at hn
    cases hn
    rw [hleaf] at hinner
    cases hinner
  refine ⟨?_, ?_, ?_, ?_⟩
  · rw [compare, hl, hn]
    simp [hleaf, hinner]
  · rw [compare, hl, hn]
    simp [hleaf, hinner]
  · rw [compare_succ h fuel pl pn l n hl hn, if_neg hne, if_pos ⟨hleaf, hinner⟩]
  · rw [compare_succ h fuel pn pl n l hn hl, if_neg (Ne.symm hne),
      if_neg (by simp [hleaf, hinner]), if_pos ⟨hinner, hleaf⟩]

/-- The theorem of C19 at the leaf of address `4` and the inner node of address `6` of the
manager `demo`. -/
theorem C19_comparator_leaf_inner_witness :
    deref demo.heap 4 = some (Node.ofVal 1) ∧
    deref demo.heap 6 = some ⟨4, 5, 5, SpecialVals.NoVal, 2, 1⟩ ∧
    (Node.ofVal 1).isLeaf = true ∧
    (⟨4, 5, 5, SpecialVals.NoVal, 2, 1⟩ : Node).isLeaf = false ∧
    compare demo.heap (6 + 1) 4 6 = some 1 ∧ compare demo.heap (6 + 1) 6 4 = some (-1) ∧
    Node.compare demo.heap (6 + 1) 4 6 = some (-1) ∧
    Node.compare demo.heap (6 + 1) 6 4 = some 1 :=
  ⟨by decide, demo_node6, by decide, by decide,
    C19_comparator_leaf_inner demo.heap 6 4 6 (Node.ofVal 1)
      ⟨4, 5, 5, SpecialVals.NoVal, 2, 1⟩ (by decide) demo_node6 (by decide) (by decide)⟩

/-- **C19**, as stated, fails: in the manager `demo`, for the leaf of address `4` (the one
`mK(1)` returned) and the inner node of address `6` (the one `mK(5, 4, 5)` returned),
`Comparator::compare(leaf, inner)` is `1`, not negative, and `Comparator::compare(inner,
leaf)` is `-1`, not positive. -/
theorem C19_comparator_leaf_after_inner :
    Reachable demo ∧
    (deref demo.heap 4).map Node.isLeaf = some true ∧
    (deref demo.heap 6).map Node.isLeaf = some false ∧
    compare demo.heap demo.heap.length 4 6 = some 1 ∧
    compare demo.heap demo.heap.length 6 4 = some (-1) ∧
    ¬ ((1 : Int) < 0) ∧ ¬ ((-1 : Int) > 0) :=
  ⟨demo_reachable, by decide, by decide, by decide, by decide, by decide, by decide⟩

end elm.Comparator

namespace elm.HashKey

open otawa.xengine

theorem subHash_low (i h : Nat) : subHash i h = subHash (i % 4294967296) h := by
  have e1 : i &&& 0xFFFFFFFF = i % 4294967296 := Nat.and_pow_two_sub_one_eq_mod i 32
  have e2 : (i % 4294967296) &&& 0xFFFFFFFF = i % 4294967296 % 4294967296 :=
    Nat.and_pow_two_sub_one_eq_mod (i % 4294967296) 32
  unfold subHash
  simp only [e1, e2, Nat.mod_mod]

/-- **C20** (the hash reads the low half only).  For every hash state `h` and all words
`i`, `j` with the same low 32 bits, `subHash(i, h) == subHash(j, h)`; hence two inner nodes
(nodes on which `var()` succeeds) whose `var`, `low` pointer and `high` pointer agree on
their low 32 bits have the same hash. -/
theorem C20_subHash_ignores_upper_half (h i j : Nat)
    (hij : i % 4294967296 = j % 4294967296) :
    subHash i h = subHash j h ∧
    (∀ a b : Node, a.isLeaf = false → b.isLeaf = false → 0 < a._var → 0 < b._var →
      a._var % 4294967296 = b._var % 4294967296 →
      a.left % 4294967296 = b.left % 4294967296 →
      a.right % 4294967296 = b.right % 4294967296 →
      hash a = hash b ∧ (hash a).isSome = true) := by
  constructor
  · rw [subHash_low i h, subHash_low j h, hij]
  · intro a b ha hb ha0 hb0 hv hl hr
    have hva : a.var = some a._var := by simp [Node.var, ha, ha0]
    have hvb : b.var = some b._var := by simp [Node.var, hb, hb0]
    have e : hash a = some (subHash a._var (subHash a.right (subHash a.left seed))) := by
      unfold hash
      rw [ha]
      simp only [Node.low, Node.high, hva]
      rfl
    have e2 : hash b = some (subHash b._var (subHash b.right (subHash b.left seed))) := by
      unfold hash
      rw [hb]
      simp only [Node.low, Node.high, hvb]
      rfl
    rw [e, e2]
    refine ⟨?_, rfl⟩
    rw [subHash_low a._var, subHash_low a.right, subHash_low a.left, subHash_low b._var,
      subHash_low b.right, subHash_low b.left, hv, hl, hr]

/-- The theorem of C20 for the words `5` and `5 + 2^32`, and for the inner nodes of
variables `5` and `5 + 2^32` over the children `4` and `5`. -/
theorem C20_subHash_ignores_upper_half_witness :
    5 % 4294967296 = 4294967301 % 4294967296 ∧
    subHash 5 13 = subHash 4294967301 13 ∧
    hash ⟨4, 5, 5, SpecialVals.NoVal, 2, 1⟩ =
      hash ⟨4, 5, 4294967301, SpecialVals.NoVal, 2, 1⟩ ∧
    (hash ⟨4, 5, 5, SpecialVals.NoVal, 2, 1⟩).isSome = true :=
  ⟨by decide, (C20_subHash_ignores_upper_half 13 5 4294967301 (by decide)).1,
    (C20_subHash_ignores_upper_half 13 5 4294967301 (by decide)).2
      ⟨4, 5, 5, SpecialVals.NoVal, 2, 1⟩ ⟨4, 5, 4294967301, SpecialVals.NoVal, 2, 1⟩
      (by decide) (by decide) (by decide) (by decide) (by decide) (by decide) (by decide)⟩

end elm.HashKey

namespace otawa.xengine.NodeManager
open otawa.xengine elm

/-- The theorem of C18 at the manager `demo`. -/
theorem C18_mK_idempotent_witness :
    Reachable demo ∧
    (∀ (var l r p : Nat) (m1 : NodeManager), var < 18446744073709551616 →
      demo.mK var l r = (some p, m1) →
      (l = r → p = l ∧ m1 = demo) ∧
      (l ≠ r → ∀ tmp q n, Node.ofVar demo.heap var l r = some tmp → demo.owns q →
        deref demo.heap q = some n → n.eq tmp = true →
        p = q ∧ m1 = demo ∧ m1.countNodes = demo.countNodes ∧
          m1._unique_table = demo._unique_table) ∧
      (l ≠ r → (∀ tmp q n, Node.ofVar demo.heap var l r = some tmp → demo.owns q →
          deref demo.heap q = some n → n.eq tmp = false) →
        m1.countNodes = demo.countNodes + 1 ∧
        (∀ q x, deref demo.heap q = some x → deref m1.heap q = some x) ∧
        (∀ e ∈ demo._unique_table.entries, e ∈ m1._unique_table.entries)) ∧
      m1.mK var l r = (some p, m1)) ∧
    (∀ (v : Int) (p : Nat) (m1 : NodeManager), SpecialVals.BOT ≤ v → v ≤ SpecialVals.TOP →
      demo.mKVal v = (some p, m1) →
      (∀ q n, demo.owns q → deref demo.heap q = some n → n.eq (Node.ofVal v) = true →
        p = q ∧ m1 = demo ∧ m1.countNodes = demo.countNodes ∧
          m1._unique_table = demo._unique_table) ∧
      ((∀ q n, demo.owns q → deref demo.heap q = some n → n.eq (Node.ofVal v) = false) →
        m1.countNodes = demo.countNodes + 1 ∧
        (∀ q x, deref demo.heap q = some x → deref m1.heap q = some x) ∧
        (∀ e ∈ demo._unique_table.entries, e ∈ m1._unique_table.entries)) ∧
      m1.mKVal v = (some p, m1)) :=
  ⟨demo_reachable, C18_mK_idempotent demo demo_reachable⟩

/-- Two calls in a row on the manager `demo`: `mK(3)` adds a leaf (five nodes in the table
instead of four) and the same call made again returns the same pointer and the same
state. -/
theorem demo_twice :
    demo.countNodes = 4 ∧ (demo.mKVal 3).1 = some 8 ∧ (demo.mKVal 3).2.countNodes = 5 ∧
      (demo.mKVal 3).2.mKVal 3 = (some 8, (demo.mKVal 3).2) := by
  decide

end otawa.xengine.NodeManager

namespace otawa.xengine.NodeManager
open otawa.xengine elm

/-- The prototype of an inner node of variable `0` cannot be hashed: `var()` aborts. -/
theorem hash_var_zero {tmp : Node} (h0 : tmp._var = 0) : HashKey.hash tmp = none := by
  have hleaf : tmp.isLeaf = false := by
    simp [Node.isLeaf, h0, SpecialVals.NoVar]
  have hvar : tmp.var = none := by
    simp [Node.var, hleaf, h0]
  unfold HashKey.hash
  rw [hleaf, hvar]
  rfl

/-- In every state of the manager, `mK(0, left, right)` with `left != right` aborts and
leaves the state as it is. -/
theorem mK_var_zero (m : NodeManager) (l r : Nat) (hlr : l ≠ r) :
    m.mK 0 l r = (none, m) := by
  by_cases h1 : l ≠ 0 ∧ r ≠ 0
  swap
  · unfold mK
    rw [if_pos h1]
  have h2 : (0 : Nat) ≠ SpecialVals.NoVar := by decide
  cases ht : Node.ofVar m.heap 0 l r with
  | none =>
    unfold mK
    rw [if_neg (not_not.mpr h1), if_neg (not_not.mpr h2), if_neg hlr]
    simp only [ht]
  | some tmp =>
    have hh := hash_var_zero (isLeaf_ofVar ht).1
    unfold mK
    rw [if_neg (not_not.mpr h1), if_neg (not_not.mpr h2), if_neg hlr]
    simp only [ht, HashMap.get, HashMap.lookup, hh]

/-- **C22** (variable `0`).  In a manager reached by successful `mK` calls, for all distinct
non-null nodes `left != right` the call `mK(0, left, right)` aborts (the manager is left as
it was): the prototype `Node(0, left, right)` is an inner node on which `var()` aborts, and
so does its hash.  Hence every inner node stored in the unique table has `0 < var` and
`var != NoVar`; and `mK(0, n, n)` succeeds and returns `n`. -/
theorem C22_var_zero_unusable (m : NodeManager) (hm : Reachable m) :
    (∀ l r : Nat, l ≠ 0 → r ≠ 0 → l ≠ r → m.mK 0 l r = (none, m)) ∧
    (∀ (l r : Nat) (tmp : Node), Node.ofVar m.heap 0 l r = some tmp →
      tmp.isLeaf = false ∧ tmp.var = none ∧ HashKey.hash tmp = none) ∧
    (∀ e ∈ m._unique_table.entries, ∀ n, deref m.heap e.value = some n →
      n.isLeaf = false → 0 < n._var ∧ n._var ≠ SpecialVals.NoVar ∧ n.var = some n._var) ∧
    (∀ n : Nat, n ≠ 0 → m.mK 0 n n = (some n, m)) := by
  refine ⟨fun l r _ _ hlr => mK_var_zero m l r hlr, ?_, ?_, ?_⟩
  · intro l r tmp ht
    have h0 := (isLeaf_ofVar ht).1
    have hleaf : tmp.isLeaf = false := by
      simp [Node.isLeaf, h0, SpecialVals.NoVar]
    exact ⟨hleaf, by simp [Node.var, hleaf, h0], hash_var_zero h0⟩
  · intro e _ n hn hl
    obtain ⟨h1, h2, _⟩ := (reachable_inv hm).inner hn hl
    exact ⟨h2, h1, by simp [Node.var, hl, h2]⟩
  · intro n hn
    unfold mK
    rw [if_neg (not_not.mpr ⟨hn, hn⟩), if_neg (not_not.mpr (by decide)), if_pos rfl]

/-- The theorem of C22 at the manager `demo`. -/
theorem C22_var_zero_unusable_witness :
    Reachable demo ∧
    (∀ l r : Nat, l ≠ 0 → r ≠ 0 → l ≠ r → demo.mK 0 l r = (none, demo)) ∧
    (∀ (l r : Nat) (tmp : Node), Node.ofVar demo.heap 0 l r = some tmp →
      tmp.isLeaf = false ∧ tmp.var = none ∧ HashKey.hash tmp = none) ∧
    (∀ e ∈ demo._unique_table.entries, ∀ n, deref demo.heap e.value = some n →
      n.isLeaf = false → 0 < n._var ∧ n._var ≠ SpecialVals.NoVar ∧ n.var = some n._var) ∧
    (∀ n : Nat, n ≠ 0 → demo.mK 0 n n = (some n, demo)) :=
  ⟨demo_reachable, C22_var_zero_unusable demo demo_reachable⟩

/-- On the manager `demo`: `mK(0, 4, 5)` aborts, `mK(0, 4, 4)` returns `4`. -/
theorem demo_var_zero :
    demo.mK 0 4 5 = (none, demo) ∧ demo.mK 0 4 4 = (some 4, demo) := by
  decide

end otawa.xengine.NodeManager

namespace otawa.xengine.NodeManager
open otawa.xengine elm

theorem wrap32_eq_zero {x y : Int} (hx1 : SpecialVals.BOT ≤ x) (hx2 : x ≤ SpecialVals.TOP)
    (hy1 : SpecialVals.BOT ≤ y) (hy2 : y ≤ SpecialVals.TOP) (h : wrap32 (x - y) = 0) :
    x = y := by
  simp only [SpecialVals.BOT, SpecialVals.TOP] at hx1 hx2 hy1 hy2
  unfold wrap32 at h
  omega

/-- Two leaves of a manager with the same value are the same node. -/
theorem Inv.leaf_unique {m : NodeManager} (hI : Inv m) {a b : Nat} {na nb : Node}
    (ha : deref m.heap a = some na) (hb : deref m.heap b = some nb)
    (hla : na.isLeaf = true) (hlb : nb.isLeaf = true) (hv : na._val = nb._val) :
    a = b := by
  obtain ⟨va, rfl, _⟩ := hI.leaf ha hla
  obtain ⟨vb, rfl, _⟩ := hI.leaf hb hlb
  have : va = vb := hv
  subst this
  exact hI.unique a b _ _ ha hb (Node.eq_refl _)

/-- Two inner nodes of a manager with the same variable and the same children are the same
node. -/
theorem Inv.inner_unique {m : NodeManager} (hI : Inv m) {a b : Nat} {na nb : Node}
    (ha : deref m.heap a = some na) (hb : deref m.heap b = some nb)
    (hla : na.isLeaf = false) (hlb : nb.isLeaf = false) (hv : na._var = nb._var)
    (hr : na.right = nb.right) (hl : na.left = nb.left) : a = b := by
  have h1 := (isLeaf_ofVar (hI.inner ha hla).2.2.2.2.2.2).2.2.2
  have h2 := (isLeaf_ofVar (hI.inner hb hlb).2.2.2.2.2.2).2.2.2
  exact hI.unique a b na nb ha hb (Node.eq_iff.mpr ⟨hv, by rw [h1, h2], hl, hr⟩)

/-- On the nodes of a manager, `compare` returns `0` only on the same node. -/
theorem compare_zero_eq {m : NodeManager} (hI : Inv m) :
    ∀ (k a b : Nat) (na nb : Node), a ≤ k → deref m.heap a = some na →
      deref m.heap b = some nb → ∀ f, k ≤ f → Node.compare m.heap f a b = some 0 →
      a = b := by
  intro k
  induction k with
  | zero =>
    intro a b na nb hk ha _
    have := (deref_bounds ha).1
    omega
  | succ k ih =>
    intro a b na nb hk ha hb f hf hc
    have hf1 : f = f - 1 + 1 := by omega
    rw [hf1, compare_succ _ _ _ _ _ _ ha hb] at hc
    by_cases h1 : a = b
    · exact h1
    rw [if_neg h1] at hc
    cases hla : na.isLeaf <;> cases hlb : nb.isLeaf
    · -- both inner
      simp only [hla, hlb, Bool.false_eq_true, and_false, false_and, and_self, if_false] at hc
      have hva := (hI.inner ha hla).2.1
      have hvb := (hI.inner hb hlb).2.1
      rw [if_neg (by omega)] at hc
      by_cases h6 : na._var > nb._var
      · rw [if_pos h6] at hc
        cases hc
      rw [if_neg h6] at hc
      by_cases h7 : na._var < nb._var
      · rw [if_pos h7] at hc
        cases hc
      rw [if_neg h7] at hc
      obtain ⟨alo, ahi, halo, hahi, ha1, ha2, _⟩ := hI.children ha hla
      obtain ⟨blo, bhi, hblo, hbhi, _⟩ := hI.children hb hlb
      cases hd : Node.compare m.heap (f - 1) na.right nb.right with
      | none =>
        rw [hd] at hc
        cases hc
      | some d =>
        rw [hd] at hc
        simp only [Option.some_bind] at hc
        by_cases hz : d = 0
        · subst hz
          simp only [ne_eq, not_true_eq_false, if_false] at hc
          have e1 := ih na.right nb.right ahi bhi (by omega) hahi hbhi (f - 1) (by omega) hd
          have e2 := ih na.left nb.left alo blo (by omega) halo hblo (f - 1) (by omega) hc
          exact hI.inner_unique ha hb hla hlb (by omega) e1 e2
        · rw [if_pos hz] at hc
          simp only [Option.some.injEq] at hc
          exact absurd hc hz
    · simp [hla, hlb] at hc
    · simp [hla, hlb] at hc
    · simp only [hla, hlb, Bool.true_eq_false, and_false, false_and, and_self, if_false,
        if_true, Option.some.injEq] at hc
      obtain ⟨va, hna, _, a1, a2⟩ := hI.leaf ha hla
      obtain ⟨vb, hnb, _, b1, b2⟩ := hI.leaf hb hlb
      have hv : na._val = nb._val := by
        rw [hna, hnb] at hc ⊢
        exact wrap32_eq_zero a1 a2 b1 b2 hc
      exact hI.leaf_unique ha hb hla hlb hv

theorem sameTree_eq {m : NodeManager} (hI : Inv m) {a b : Nat}
    (h : Node.SameTree m.heap a b) : a = b := by
  induction h with
  | leaf a b na nb ha hb hla hlb hv => exact hI.leaf_unique ha hb hla hlb hv
  | inner a b na nb ha hb hla hlb hv _ _ ihr ihl =>
    exact hI.inner_unique ha hb hla hlb hv ihr ihl

theorem sameTree_refl {m : NodeManager} (hI : Inv m) :
    ∀ (k a : Nat) (na : Node), a ≤ k → deref m.heap a = some na →
      Node.SameTree m.heap a a := by
  intro k
  induction k with
  | zero =>
    intro a na hk ha
    have := (deref_bounds ha).1
    omega
  | succ k ih =>
    intro a na hk ha
    cases hla : na.isLeaf with
    | true => exact Node.SameTree.leaf a a na na ha ha hla hla rfl
    | false =>
      obtain ⟨alo, ahi, halo, hahi, ha1, ha2, _⟩ := hI.children ha hla
      exact Node.SameTree.inner a a na na ha ha hla hla rfl
        (ih na.right ahi (by omega) hahi) (ih na.left alo (by omega) halo)

end otawa.xengine.NodeManager

namespace otawa.xengine.NodeManager
open otawa.xengine elm

/-- **C21** (`compare` is `0` exactly on equal diagrams).  For all nodes `a`, `b` of a manager
reached by successful `mK` calls (the fuel `f` of the embedding being at least the size of
the store), `a.compare(b) == 0` if and only if `a` and `b` are the same tree when unfolded;
if and only if both are leaves of equal `val()`, or both are inner nodes of equal `var()`
whose `high` children compare to `0` and whose `low` children compare to `0`; and, the
nodes being hash-consed, if and only if `a` and `b` are the same pointer. -/
theorem C21_compare_zero_iff_same (m : NodeManager) (hm : Reachable m) (f : Nat)
    (hf : m.heap.length ≤ f) (a b : Nat) (na nb : Node)
    (ha : deref m.heap a = some na) (hb : deref m.heap b = some nb) :
    (Node.compare m.heap f a b = some 0 ↔ Node.SameTree m.heap a b) ∧
    (Node.compare m.heap f a b = some 0 ↔
      (na.isLeaf = true ∧ nb.isLeaf = true ∧ na.val = nb.val) ∨
      (na.isLeaf = false ∧ nb.isLeaf = false ∧ na.var = nb.var ∧
        ∃ ah bh al bl, na.high = some ah ∧ nb.high = some bh ∧ na.low = some al ∧
          nb.low = some bl ∧ Node.compare m.heap f ah bh = some 0 ∧
          Node.compare m.heap f al bl = some 0)) ∧
    (Node.compare m.heap f a b = some 0 ↔ a = b) := by
  have hI := reachable_inv hm
  have hab := (deref_bounds ha).2
  have hf1 : f = f - 1 + 1 := by
    have := hI.heap_len
    omega
  have hrefl : ∀ (x : Nat) (nx : Node), deref m.heap x = some nx →
      Node.compare m.heap f x x = some 0 := by
    intro x nx hx
    rw [hf1, compare_succ _ _ _ _ _ _ hx hx, if_pos rfl]
  have hptr : Node.compare m.heap f a b = some 0 ↔ a = b := by
    constructor
    · exact compare_zero_eq hI a a b na nb (le_refl _) ha hb f (by omega)
    · intro h
      subst h
      exact hrefl a na ha
  have htree : Node.SameTree m.heap a b ↔ a = b := by
    constructor
    · exact sameTree_eq hI
    · intro h
      subst h
      exact sameTree_refl hI a a na (le_refl _) ha
  refine ⟨hptr.trans htree.symm, ?_, hptr⟩
  rw [hptr]
  constructor
  · intro h
    subst h
    rw [ha] at hb
    cases hb
    cases hla : na.isLeaf with
    | true => exact Or.inl ⟨rfl, rfl, rfl⟩
    | false =>
      obtain ⟨alo, ahi, halo, hahi, _⟩ := hI.children ha hla
      exact Or.inr ⟨rfl, rfl, rfl, na.right, na.right, na.left, na.left, rfl, rfl, rfl, rfl,
        hrefl _ _ hahi, hrefl _ _ halo⟩
  · rintro (⟨hla, hlb, hv⟩ | ⟨hla, hlb, hv, ah, bh, al, bl, h1, h2, h3, h4, hch, hcl⟩)
    · have hv2 : na._val = nb._val := by
        simpa [Node.val, hla, hlb] using hv
      exact hI.leaf_unique ha hb hla hlb hv2
    · have hva := (hI.inner ha hla).2.1
      have hvb := (hI.inner hb hlb).2.1
      have hv2 : na._var = nb._var := by
        simpa [Node.var, hla, hlb, hva, hvb] using hv
      simp only [Node.high, Node.low, Option.some.injEq] at h1 h2 h3 h4
      subst h1 h2 h3 h4
      obtain ⟨alo, ahi, halo, hahi, ha1, ha2, _⟩ := hI.children ha hla
      obtain ⟨blo, bhi, hblo, hbhi, _⟩ := hI.children hb hlb
      have e1 := compare_zero_eq hI na.right na.right nb.right ahi bhi (le_refl _) hahi hbhi f
        (by omega) hch
      have e2 := compare_zero_eq hI na.left na.left nb.left alo blo (le_refl _) halo hblo f
        (by omega) hcl
      exact hI.inner_unique ha hb hla hlb hv2 e1 e2

/-- The theorem of C21 at the inner nodes of addresses `6` and `7` of the manager `demo`. -/
theorem C21_compare_zero_iff_same_witness :
    Reachable demo ∧ demo.heap.length ≤ 7 ∧
    deref demo.heap 6 = some ⟨4, 5, 5, SpecialVals.NoVal, 2, 1⟩ ∧
    deref demo.heap 7 = some ⟨6, 4, 7, SpecialVals.NoVal, 2, 1⟩ ∧
    (Node.compare demo.heap 7 6 7 = some 0 ↔ Node.SameTree demo.heap 6 7) ∧
    (Node.compare demo.heap 7 6 7 = some 0 ↔
      ((⟨4, 5, 5, SpecialVals.NoVal, 2, 1⟩ : Node).isLeaf = true ∧
        (⟨6, 4, 7, SpecialVals.NoVal, 2, 1⟩ : Node).isLeaf = true ∧
        (⟨4, 5, 5, SpecialVals.NoVal, 2, 1⟩ : Node).val =
          (⟨6, 4, 7, SpecialVals.NoVal, 2, 1⟩ : Node).val) ∨
      ((⟨4, 5, 5, SpecialVals.NoVal, 2, 1⟩ : Node).isLeaf = false ∧
        (⟨6, 4, 7, SpecialVals.NoVal, 2, 1⟩ : Node).isLeaf = false ∧
        (⟨4, 5, 5, SpecialVals.NoVal, 2, 1⟩ : Node).var =
          (⟨6, 4, 7, SpecialVals.NoVal, 2, 1⟩ : Node).var ∧
        ∃ ah bh al bl, (⟨4, 5, 5, SpecialVals.NoVal, 2, 1⟩ : Node).high = some ah ∧
          (⟨6, 4, 7, SpecialVals.NoVal, 2, 1⟩ : Node).high = some bh ∧
          (⟨4, 5, 5, SpecialVals.NoVal, 2, 1⟩ : Node).low = some al ∧
          (⟨6, 4, 7, SpecialVals.NoVal, 2, 1⟩ : Node).low = some bl ∧
          Node.compare demo.heap 7 ah bh = some 0 ∧
          Node.compare demo.heap 7 al bl = some 0)) ∧
    (Node.compare demo.heap 7 6 7 = some 0 ↔ 6 = 7) :=
  ⟨demo_reachable, by decide, demo_node6, demo_node7,
    C21_compare_zero_iff_same demo demo_reachable 7 (by decide) 6 7 _ _ demo_node6
      demo_node7⟩

/-- On the manager `demo`: a node compares to `0` with itself, and the two inner nodes do
not compare to `0`. -/
theorem demo_compare_zero :
    Node.compare demo.heap 7 7 7 = some 0 ∧ Node.compare demo.heap 7 6 7 = some (-1) ∧
      Node.compare demo.heap 7 4 5 = some (-1) := by
  decide

end otawa.xengine.NodeManager
